import Mathlib

/-!
Verification of the BZeroX dApp graphing scripts.

This development shallowly embeds the three Python source files

* pythonMinedBlockGetter.py (checkpointed log scanner and event folding),
* findPricesAndTimestamps_BWORK.py and findPricesAndTimestamps.py
  (slot0 decoding, retrying storage reads, the price snapshot store and
  the block-from-timestamp estimator),

and proves the behavioural properties claimed for them. Python integers
are unbounded, so they are modelled as Nat / Int; mask-and-shift
operations on non-negative integers are modelled as division and modulus
with explicit powers of two; remote RPC calls are abstracted as pure
oracles; Python float arithmetic that the proved properties depend on
numerically is modelled as exact rational arithmetic over ℚ, while float
price values that are only moved around by the snapshot store are kept
polymorphic.
-/

namespace BZeroX

/-! ## pythonMinedBlockGetter.py -/

namespace MinedBlockGetter

/-- The configured start height eth_block_start from
EthereumBlockFetcher.__init__. -/
def eth_block_start : Nat := 30111966

/-- load_last_processed_block (lines 27-37): the persisted checkpoint
file is modelled as an optional stored last_block value; a missing or
unreadable file yields the default start block. -/
def load_last_processed_block (file : Option Nat) : Nat :=
  match file with
  | some b => b
  | none => eth_block_start

/-- Fuel-bounded unfolding of the while loop of run_once over
current_start; each produced pair is the (current_start, current_end)
range passed to fetch_logs, with current_end = min (current_start +
batch_size - 1) head. -/
def windowsFrom (batch head : Nat) : Nat → Nat → List (Nat × Nat)
  | 0, _ => []
  | fuel + 1, start =>
    if start ≤ head then
      (start, min (start + batch - 1) head) ::
        windowsFrom batch head fuel (min (start + batch - 1) head + 1)
    else []

/-- The sequence of (from_block, to_block) ranges that run_once
(lines 143-190) passes to fetch_logs, as a function of the loaded
checkpoint value, the chain head and the batch size. run_once sets
start_block to the loaded checkpoint itself and returns immediately when
it exceeds the head. The fuel head + 1 - checkpoint bounds the number of
windows; with a positive batch size every window ends at or beyond its
start, so the fuel is never exhausted before the loop exits. -/
def runOnceWindows (checkpoint head batch : Nat) : List (Nat × Nat) :=
  if checkpoint > head then []
  else windowsFrom batch head (head + 1 - checkpoint) checkpoint

/-- A log entry returned by get_logs. transactionHash, the topics and
data are hex strings (including the 0x prefix, as produced by .hex()),
modelled as character lists. -/
structure Event where
  transactionHash : List Char
  blockNumber : Nat
  topics : List (List Char)
  data : List Char
deriving DecidableEq

/-- A mined_blocks entry [block_number, tx_hash, miner_address, amount].
The Python float amount is modelled as an exact rational; real event
amounts are wei / 10^18 and the synthetic marker uses the sentinel -1. -/
structure MinedRec where
  block : Nat
  txHash : List Char
  miner : List Char
  amount : ℚ
deriving DecidableEq

/-- The mutable fetcher state threaded through process_transaction:
self.previous_challenge and self.mined_blocks (newest first). -/
structure FetchState where
  previous_challenge : Option (List Char)
  mined_blocks : List MinedRec
deriving DecidableEq

/-- The state set up by __init__: no previous challenge, empty log. -/
def initState : FetchState := ⟨none, []⟩

/-- Value of one hexadecimal digit, as used by int(s, 16); the source
raises on characters outside [0-9a-fA-F], which this model maps to 0
(the claims never depend on malformed hex data). -/
def hexDigit (c : Char) : Nat :=
  if '0' ≤ c ∧ c ≤ '9' then c.toNat - '0'.toNat
  else if 'a' ≤ c ∧ c ≤ 'f' then c.toNat - 'a'.toNat + 10
  else if 'A' ≤ c ∧ c ≤ 'F' then c.toNat - 'A'.toNat + 10
  else 0

/-- int(s, 16) on a hex string. -/
def hexToNat (s : List Char) : Nat :=
  s.foldl (fun acc c => 16 * acc + hexDigit c) 0

/-- get_miner_address_from_topic (lines 45-53). -/
def get_miner_address_from_topic (topic : List Char) : List Char :=
  let t := if topic.take 2 = ['0', 'x'] then topic.drop 2 else topic
  if 40 ≤ t.length then ['0', 'x'] ++ t.drop (t.length - 40) else t

/-- The decoded challenge field: data hex characters 130-194
(process_transaction line 101). -/
def challengeOf (e : Event) : List Char := (e.data.drop 130).take 64

/-- Miner address decoded from topics[1]. Python indexing raises when
the topic list is too short; the model defaults to the empty string,
which no claim exercises. -/
def minerOf (e : Event) : List Char :=
  get_miner_address_from_topic (e.topics.getD 1 [])

/-- Amount decoded from data hex characters 2-66 and scaled by 10^18
(process_transaction lines 93-97); zero when the payload is too short. -/
def amountOf (e : Event) : ℚ :=
  if 66 ≤ e.data.length then (hexToNat ((e.data.drop 2).take 64) : ℚ) / 10 ^ 18
  else 0

/-- The real record appended for a mined event (line 115). -/
def realRec (e : Event) : MinedRec :=
  ⟨e.blockNumber, e.transactionHash, minerOf e, amountOf e⟩

/-- The synthetic marker entry inserted on a challenge change
(line 111): sentinel amount -1. -/
def markerRec (firstBlock : Nat) (e : Event) : MinedRec :=
  ⟨firstBlock, e.transactionHash, minerOf e, -1⟩

/-- process_transaction (lines 81-115). The challenge step runs only
when the payload reaches 194 hex characters; a change prepends one
marker record referencing mined_blocks[0][0] (or the current block for
an empty log) before the real record is prepended. -/
def process_transaction (s : FetchState) (e : Event) : FetchState :=
  let s1 : FetchState :=
    if 194 ≤ e.data.length then
      let challenger := challengeOf e
      if s.previous_challenge ≠ some challenger then
        match s.previous_challenge with
        | none => ⟨some challenger, s.mined_blocks⟩
        | some _ =>
          let first_block_num :=
            match s.mined_blocks with
            | [] => e.blockNumber
            | r :: _ => r.block
          ⟨some challenger, markerRec first_block_num e :: s.mined_blocks⟩
      else s
    else s
  ⟨s1.previous_challenge, realRec e :: s1.mined_blocks⟩

/-- Folding a window's events through process_transaction in order. -/
def foldProc (s : FetchState) (evs : List Event) : FetchState :=
  evs.foldl process_transaction s

/-- A concrete 194-hex-character event whose challenge field is all
zeros. -/
def evA : Event := ⟨['a'], 5, [['t']], List.replicate 194 '0'⟩

/-- A concrete 194-hex-character event whose challenge field is all
ones, so that the challenge changes from evA to evB. -/
def evB : Event :=
  ⟨['b'], 9, [['u']], List.replicate 130 '0' ++ List.replicate 64 '1'⟩

end MinedBlockGetter

/-! ## IEEE-754 binary64 rounding
The Python programs compute prices and block estimates with float
arithmetic: every true division (int / int and int / float) produces
the binary64 double nearest to the exact quotient, with ties broken to
the even significand. All values these programs round lie well inside
the normal range of binary64 (far from overflow, underflow and
subnormals), so the rounding step is faithfully modelled as rounding an
exact rational to 53 significant bits with an unbounded exponent:
round-to-nearest-ties-even at precision 53. -/

/-- Rounding a positive rational to 53 significant binary digits,
round-to-nearest-ties-even: the exact significand q * 2 ^ (52 - e)
(in [2^52, 2^53)) is rounded to the nearest integer, ties to even. -/
def roundQ53pos (q : ℚ) : ℚ :=
  let e := Int.log 2 q
  let scaled := q * 2 ^ (52 - e)
  let m := ⌊scaled⌋
  let r := scaled - (m : ℚ)
  let m2 := if 1 / 2 < r ∨ (r = 1 / 2 ∧ m % 2 = 1) then m + 1 else m
  (m2 : ℚ) * 2 ^ (e - 52)

/-- Binary64 rounding of an arbitrary rational: rounding commutes with
negation (the rounding is sign-symmetric) and fixes zero. -/
def roundQ53 (q : ℚ) : ℚ :=
  if 0 < q then roundQ53pos q else if q < 0 then - roundQ53pos (-q) else 0

/-! ## Slot0 decoding and retrying storage reads
(findPricesAndTimestamps.py lines 10-36 and the identical
findPricesAndTimestamps_BWORK.py lines 156-182) -/

namespace Slot0

/-- unpack_slot0: bit-slices of the 256-bit packed word. Python's
packed & ((1 <<< n) - 1) and packed >>> n on unbounded non-negative
integers are modulus and division by 2 ^ n; the sign test
tick & (1 <<< 23) is kept as a bitwise conjunction. -/
def unpack_slot0 (packed : Nat) : Nat × Int × Nat × Nat :=
  let sqrtPriceX96 := packed % 2 ^ 160
  let tickRaw := packed / 2 ^ 160 % 2 ^ 24
  let tick : Int :=
    if tickRaw &&& (1 <<< 23) ≠ 0 then (tickRaw : Int) - 2 ^ 24
    else (tickRaw : Int)
  let protocolFee := packed / 2 ^ 184 % 2 ^ 24
  let lpFee := packed / 2 ^ 208 % 2 ^ 24
  (sqrtPriceX96, tick, protocolFee, lpFee)

/-- The fixed layout of the spec: sqrtPriceX96 in bits 0-159, the 24-bit
two's-complement tick field in bits 160-183, protocolFee in bits
184-207 and lpFee in bits 208-231. The Int.emod by 2 ^ 24 is exactly
the 24-bit two's-complement encoding of the tick. -/
def pack_slot0 (sqrtPriceX96 : Nat) (tick : Int) (protocolFee lpFee : Nat) : Nat :=
  sqrtPriceX96 + (tick % 2 ^ 24).toNat * 2 ^ 160
    + protocolFee * 2 ^ 184 + lpFee * 2 ^ 208

/-- Q192 = 2 ** 192. -/
def Q192 : Nat := 2 ^ 192

/-- sqrtPriceX96_to_price: sq ** 2 / Q192. sq ** 2 and Q192 are exact
Python ints; the float true division rounds the exact quotient once to
binary64, modelled by roundQ53. -/
def sqrtPriceX96_to_price (sq : Nat) : ℚ := roundQ53 ((sq : ℚ) ^ 2 / (Q192 : ℚ))

/-- int.from_bytes(data, "big"). -/
def bytesToNatBE (bs : List Nat) : Nat := bs.foldl (fun acc b => 256 * acc + b) 0

/-- Loop body of get_storage_with_retry, with the remote
w3.eth.getStorageAt call abstracted as a pure per-attempt oracle
(none models an attempt that raised). Returns the outcome - the
big-endian integer of the fetched word, or the raised RuntimeError
payload (slot locator, retry count) - together with the number of
oracle calls made. The fuel is the number of remaining loop iterations
retries - attempt, so the error branch is exactly the loop exit. -/
def retryAux (fetch : Nat → Option (List Nat)) (slot : String) (retries : Nat) :
    Nat → Nat → Except (String × Nat) Nat × Nat
  | _, 0 => (Except.error (slot, retries), 0)
  | attempt, fuel + 1 =>
    match fetch attempt with
    | some d => (Except.ok (bytesToNatBE d), 1)
    | none =>
      let r := retryAux fetch slot retries (attempt + 1) fuel
      (r.1, r.2 + 1)

/-- get_storage_with_retry (findPricesAndTimestamps.py lines 10-23,
findPricesAndTimestamps_BWORK.py lines 156-169): the while loop starts
at attempt 0 and runs while attempt < retries. -/
def get_storage_with_retry (fetch : Nat → Option (List Nat)) (slot : String)
    (retries : Nat) : Except (String × Nat) Nat × Nat :=
  retryAux fetch slot retries 0 retries

end Slot0

/-! ## The price snapshot store and the block estimator
(findPricesAndTimestamps_BWORK.py) -/

namespace PriceStore

/-- TARGET_HOURS = [0, 6, 12, 18]. -/
def TARGET_HOURS : List Nat := [0, 6, 12, 18]

/-- MAX_DATA_POINTS = 4 * 30. -/
def MAX_DATA_POINTS : Nat := 4 * 30

/-- is_target_time (lines 91-107). datetime.fromtimestamp(ts, utc).hour
and .minute are ts / 3600 % 24 and ts / 60 % 60; seconds within the
minute never enter the comparison. The loop over TARGET_HOURS returning
True on the first anchor within tolerance is List.any. -/
def is_target_time (timestamp : Nat) (tolerance_minutes : Nat) : Bool :=
  let hour := timestamp / 3600 % 24
  let minute := timestamp / 60 % 60
  TARGET_HOURS.any fun target_hour =>
    let d0 := max (hour * 60 + minute) (target_hour * 60)
      - min (hour * 60 + minute) (target_hour * 60)
    let d := min d0 (24 * 60 - d0)
    d ≤ tolerance_minutes

variable {α : Type}

/-- Co-indexed traversal of the three parallel arrays: the source loops
for i in range(len(timestamps)) reading timestamps[i], blocks[i] and
prices[i]. Faithful whenever the three lists have equal length, which
every theorem below assumes (on shorter blocks or prices the source
would raise IndexError). -/
def toTriples : List Nat → List Nat → List α → List (Nat × Nat × α)
  | t :: ts, b :: bs, p :: ps => (t, b, p) :: toTriples ts bs ps
  | _, _, _ => []

/-- Stable ascending insertion by timestamp; folding it over a list is
Python's stable list.sort(key = timestamp). -/
def insertByTs (x : Nat × Nat × α) : List (Nat × Nat × α) → List (Nat × Nat × α)
  | [] => [x]
  | y :: ys => if x.1 < y.1 then x :: y :: ys else y :: insertByTs x ys

/-- non_target_data.sort(key = lambda x: x[0]) (line 137). -/
def sortByTs (l : List (Nat × Nat × α)) : List (Nat × Nat × α) :=
  l.foldl (fun acc x => insertByTs x acc) []

/-- The insert-position scan used throughout the source: the first index
whose timestamp strictly exceeds t, or the length when none does. -/
def findInsertPos (t : Nat) : List Nat → Nat
  | [] => 0
  | x :: xs => if t < x then 0 else findInsertPos t xs + 1

/-- list.insert(n, a): insert before index n, appending when n reaches
past the end. -/
def insAt (n : Nat) (a : α) : List α → List α :=
  match n with
  | 0 => fun l => a :: l
  | n + 1 => fun l =>
    match l with
    | [] => [a]
    | x :: xs => x :: insAt n a xs

/-- clean_data_keep_targets_and_current (lines 109-154): partition into
target and non-target samples, keep every target sample, and re-insert
only the most recent non-target sample (the last element of the stable
timestamp sort) at its scan position. -/
def clean_data_keep_targets_and_current (timestamps blocks : List Nat)
    (prices : List α) : List Nat × List Nat × List α :=
  if timestamps.isEmpty then (timestamps, blocks, prices) else
  let all := toTriples timestamps blocks prices
  let target_data := all.filter fun x => is_target_time x.1 30
  let non_target_data := all.filter fun x => ! is_target_time x.1 30
  let cleaned_timestamps := target_data.map fun x => x.1
  let cleaned_blocks := target_data.map fun x => x.2.1
  let cleaned_prices := target_data.map fun x => x.2.2
  match sortByTs non_target_data with
  | [] => (cleaned_timestamps, cleaned_blocks, cleaned_prices)
  | m :: ms =>
    let most_recent := (m :: ms).getLast (List.cons_ne_nil m ms)
    let insert_pos := findInsertPos most_recent.1 cleaned_timestamps
    (insAt insert_pos most_recent.1 cleaned_timestamps,
     insAt insert_pos most_recent.2.1 cleaned_blocks,
     insAt insert_pos most_recent.2.2 cleaned_prices)

/-- update_current_price (lines 376-401): drop every non-target sample,
then insert the current sample at its scan position. -/
def update_current_price (timestamps blocks : List Nat) (prices : List α)
    (current_timestamp current_block : Nat) (current_price : α) :
    List Nat × List Nat × List α :=
  let all := toTriples timestamps blocks prices
  let tgt := all.filter fun x => is_target_time x.1 30
  let target_timestamps := tgt.map fun x => x.1
  let target_blocks := tgt.map fun x => x.2.1
  let target_prices := tgt.map fun x => x.2.2
  let insert_pos := findInsertPos current_timestamp target_timestamps
  (insAt insert_pos current_timestamp target_timestamps,
   insAt insert_pos current_block target_blocks,
   insAt insert_pos current_price target_prices)

/-- Fuel-bounded unfolding of the overflow while loop: each iteration
pops the front of all three arrays, so the initial timestamp count
bounds the number of iterations. -/
def evictLoop (maxSize : Nat) : Nat → List Nat → List Nat → List α →
    List Nat × List Nat × List α
  | 0, timestamps, blocks, prices => (timestamps, blocks, prices)
  | fuel + 1, timestamps, blocks, prices =>
    if maxSize < timestamps.length then
      evictLoop maxSize fuel timestamps.tail blocks.tail prices.tail
    else (timestamps, blocks, prices)

/-- The overflow loop of main (lines 486-489): while the stored count
exceeds the cap, pop the front of all three arrays. -/
def evictOverflow (maxSize : Nat) (timestamps blocks : List Nat)
    (prices : List α) : List Nat × List Nat × List α :=
  evictLoop maxSize timestamps.length timestamps blocks prices

/-- The target-time branch of the monitoring loop (lines 475-489):
insert the current sample at its scan position, then evict overflow
down to MAX_DATA_POINTS. -/
def insert_target_point (timestamps blocks : List Nat) (prices : List α)
    (current_timestamp current_block : Nat) (current_price : α) :
    List Nat × List Nat × List α :=
  let insert_pos := findInsertPos current_timestamp timestamps
  evictOverflow MAX_DATA_POINTS
    (insAt insert_pos current_timestamp timestamps)
    (insAt insert_pos current_block blocks)
    (insAt insert_pos current_price prices)

/-- The snapshot-store mutations the monitoring code performs. -/
inductive StoreOp (α : Type) where
  | upsertCurrent (ct cb : Nat) (cp : α)
  | clean
  | insertTarget (ct cb : Nat) (cp : α)

/-- Dispatch one operation on the triple of parallel arrays. -/
def applyOp (s : List Nat × List Nat × List α) : StoreOp α →
    List Nat × List Nat × List α
  | StoreOp.upsertCurrent ct cb cp => update_current_price s.1 s.2.1 s.2.2 ct cb cp
  | StoreOp.clean => clean_data_keep_targets_and_current s.1 s.2.1 s.2.2
  | StoreOp.insertTarget ct cb cp => insert_target_point s.1 s.2.1 s.2.2 ct cb cp

/-- Apply a whole call sequence in order. -/
def applyOps (s : List Nat × List Nat × List α) (ops : List (StoreOp α)) :
    List Nat × List Nat × List α :=
  ops.foldl applyOp s

/-- The guard main places on permanent insertions: only samples whose
timestamp is a target time reach the insertTarget branch (line 472). -/
def opOK : StoreOp α → Bool
  | StoreOp.insertTarget ct _ _ => is_target_time ct 30
  | _ => true

/-- Number of stored samples whose timestamp is not a target time. -/
def countNonTarget (ts : List Nat) : Nat :=
  ts.countP fun t => ! is_target_time t 30

/-- The store invariant of the claim: equal-length parallel arrays,
non-decreasing timestamps, and at most one non-target sample. -/
def storeInv (s : List Nat × List Nat × List α) : Prop :=
  s.1.length = s.2.1.length ∧ s.1.length = s.2.2.length ∧
    List.Sorted (· ≤ ·) s.1 ∧ countNonTarget s.1 ≤ 1

/-- Python int() applied to a float quotient: truncation toward zero,
modelled on the exact rational value. -/
def pyInt (q : ℚ) : Int := Int.tdiv q.num q.den

/-- estimate_block_from_timestamp (lines 220-257), with the remote
w3.eth.getBlock(b)["timestamp"] lookup abstracted as the pure oracle
getTs and the float arithmetic modelled by binary64 rounding:
seconds_per_block = actual_time_diff / actual_block_diff is an
int / int true division (one rounding of the exact quotient), the
fallback literal 2.0 is exact, and time_diff / seconds_per_block is an
int / float division: the int is first converted to a double (one
rounding) and the float quotient is rounded once more. int() truncates
toward zero. int((24 * 60 * 60) / 2) is 43200. -/
def estimate_block_from_timestamp (getTs : Int → Int)
    (target_timestamp current_block current_timestamp : Int) : Int :=
  let blocks_24h_ago_estimate : Int := 43200
  let sample_block_24h_ago := max 1 (current_block - blocks_24h_ago_estimate)
  let sample_timestamp_24h_ago := getTs sample_block_24h_ago
  let actual_time_diff := current_timestamp - sample_timestamp_24h_ago
  let actual_block_diff := current_block - sample_block_24h_ago
  let seconds_per_block : ℚ :=
    if 0 < actual_block_diff ∧ 0 < actual_time_diff then
      roundQ53 ((actual_time_diff : ℚ) / (actual_block_diff : ℚ))
    else 2
  let time_diff := current_timestamp - target_timestamp
  let blocks_diff := pyInt (roundQ53 (roundQ53 (time_diff : ℚ) / seconds_per_block))
  max 1 (current_block - blocks_diff)

/-- Modelled from the spec: the estimator exactly as the claim words it,
with the 2-second fallback taken exactly when the denominator
currentBlock - referenceBlock is non-positive, and the extrapolated
block count floored. Used only to compare the claim with the code. -/
def claimEstimate (getTs : Int → Int) (tt cb ct : Int) : Int :=
  let rb := max 1 (cb - 43200)
  let td := ct - getTs rb
  let bd := cb - rb
  let spb : ℚ := if 0 < bd then (td : ℚ) / (bd : ℚ) else 2
  max 1 (cb - Int.floor ((ct - tt : ℚ) / spb))

/-- Second-resolution time of day (claim C10's notion of the UTC time of
day of a timestamp). -/
def todSec (ts : Nat) : Nat := ts % 86400

/-- Circular distance on the 86400-second day. -/
def circDistSec (x a : Nat) : Nat :=
  let d := max x a - min x a
  min d (86400 - d)

/-- The four anchor times of day, in seconds. -/
def anchorsSec : List Nat := [0, 21600, 43200, 64800]

/-- Minute-resolution time of day: seconds within the minute discarded,
exactly the granularity is_target_time sees. -/
def todMin (ts : Nat) : Nat := ts / 60 % 1440

/-- Circular distance on the 1440-minute day. -/
def circDistMin (x a : Nat) : Nat :=
  let d := max x a - min x a
  min d (1440 - d)

end PriceStore

/-! ## Theorems -/

namespace MinedBlockGetter

/-- Claim C1 (code_bug evaluation): with a persisted checkpoint of 100,
chain head 599 and batch size 499, run_once sets start_block to the
loaded checkpoint itself, so the first fetch_logs window is [100, 598] -
not the claimed [101, 599] - and the committed block 100 is fetched
again. -/
theorem runOnce_refetches_checkpoint_block :
    runOnceWindows (load_last_processed_block (some 100)) 599 499
      = [(100, 598), (599, 599)] ∧
    100 ∈ (runOnceWindows (load_last_processed_block (some 100)) 599 499).map
      Prod.fst := by
  decide

/-- Processing any event whose payload carries a challenge field leaves
that challenge as the recorded previous challenge. -/
theorem process_prev (s : FetchState) (e : Event) (h : 194 ≤ e.data.length) :
    (process_transaction s e).previous_challenge = some (challengeOf e) := by
  simp only [process_transaction]
  rw [if_pos h]
  by_cases hc : s.previous_challenge ≠ some (challengeOf e)
  · rw [if_pos hc]
    cases hp : s.previous_challenge with
    | none => rfl
    | some c0 => rfl
  · rw [if_neg hc]
    push_neg at hc
    exact hc

/-- The real record is always prepended. -/
theorem process_mined_cons (s : FetchState) (e : Event) :
    ∃ t, (process_transaction s e).mined_blocks = realRec e :: t :=
  ⟨_, rfl⟩

/-- Step behaviour on a challenge change: one marker record carrying the
block of the newest stored record is prepended before the real record. -/
theorem process_step_marker (s : FetchState) (e : Event) (c : List Char)
    (r : MinedRec) (t : List MinedRec)
    (hprev : s.previous_challenge = some c) (hmined : s.mined_blocks = r :: t)
    (h : 194 ≤ e.data.length) (hne : challengeOf e ≠ c) :
    (process_transaction s e).mined_blocks
      = realRec e :: markerRec r.block e :: s.mined_blocks := by
  have hcond : s.previous_challenge ≠ some (challengeOf e) := by
    rw [hprev]
    intro heq
    injection heq with h2
    exact hne h2.symm
  simp only [process_transaction]
  rw [if_pos h, if_pos hcond, hprev, hmined]

/-- Step behaviour on an unchanged challenge: only the real record is
prepended. -/
theorem process_step_no_marker (s : FetchState) (e : Event) (c : List Char)
    (hprev : s.previous_challenge = some c) (h : 194 ≤ e.data.length)
    (heq : challengeOf e = c) :
    (process_transaction s e).mined_blocks = realRec e :: s.mined_blocks := by
  have hcond : ¬ s.previous_challenge ≠ some (challengeOf e) := by
    rw [hprev, heq]
    exact not_ne_iff.mpr rfl
  simp only [process_transaction]
  rw [if_pos h, if_neg hcond]

/-- Step behaviour from the initial unset challenge: the challenge is
set and no marker is emitted. -/
theorem process_step_none (s : FetchState) (e : Event)
    (h : 194 ≤ e.data.length) (hprev : s.previous_challenge = none) :
    (process_transaction s e).mined_blocks = realRec e :: s.mined_blocks := by
  have hcond : s.previous_challenge ≠ some (challengeOf e) := by
    rw [hprev]
    simp
  simp only [process_transaction]
  rw [if_pos h, if_pos hcond, hprev]

/-- Claim C5: folding an event sequence in order, whenever the decoded
challenge of the next event differs from the previous event's, exactly
one synthetic marker record is prepended in addition to the real
record; the marker carries the sentinel amount -1 (real amounts are
non-negative) and references the block stored in the first (newest)
entry of the collection, i.e. the last block recorded under the
previous challenge; on an unchanged challenge only the real record is
prepended; and an event processed while the challenge is still unset
prepends its real record with no marker. -/
theorem challenge_marker_emission (pre : List Event) (a b : Event)
    (ha : 194 ≤ a.data.length) (hb : 194 ≤ b.data.length) :
    (challengeOf b ≠ challengeOf a →
      (foldProc initState (pre ++ [a, b])).mined_blocks
        = realRec b :: markerRec a.blockNumber b
            :: (foldProc initState (pre ++ [a])).mined_blocks) ∧
    (challengeOf b = challengeOf a →
      (foldProc initState (pre ++ [a, b])).mined_blocks
        = realRec b :: (foldProc initState (pre ++ [a])).mined_blocks) ∧
    (∀ k, (markerRec k b).amount = -1) ∧ 0 ≤ (realRec b).amount ∧
    (∀ (e : Event) (s : FetchState), 194 ≤ e.data.length →
      s.previous_challenge = none →
      (process_transaction s e).mined_blocks = realRec e :: s.mined_blocks) := by
  have hfold1 : foldProc initState (pre ++ [a])
      = process_transaction (foldProc initState pre) a := by
    simp [foldProc, List.foldl_append]
  have hfold2 : foldProc initState (pre ++ [a, b])
      = process_transaction (process_transaction (foldProc initState pre) a) b := by
    simp [foldProc, List.foldl_append]
  have hprev : (process_transaction (foldProc initState pre) a).previous_challenge
      = some (challengeOf a) := process_prev _ a ha
  obtain ⟨t, hmined⟩ := process_mined_cons (foldProc initState pre) a
  refine ⟨?_, ?_, fun k => rfl, ?_, ?_⟩
  · intro hne
    rw [hfold2, hfold1,
      process_step_marker _ b (challengeOf a) (realRec a) t hprev hmined hb hne]
    rfl
  · intro heq
    rw [hfold2, hfold1,
      process_step_no_marker _ b (challengeOf a) hprev hb heq]
  · show 0 ≤ amountOf b
    unfold amountOf
    split_ifs
    · positivity
    · exact le_refl 0
  · intro e s he hsprev
    exact process_step_none s e he hsprev

set_option maxRecDepth 4000 in
/-- Witness for C5: two concrete events with different challenge fields
produce exactly the real record of the second, one marker with amount
-1 referencing the first event's block, and the real record of the
first. -/
theorem challenge_marker_emission_witness :
    (foldProc initState [evA, evB]).mined_blocks
      = [realRec evB, markerRec evA.blockNumber evB, realRec evA] := by
  have h := challenge_marker_emission [] evA evB (by decide) (by decide)
  have h1 := h.1 (by decide)
  have h2 : (foldProc initState [evA]).mined_blocks = [realRec evA] :=
    h.2.2.2.2 evA initState (by decide) rfl
  simp only [List.nil_append] at h1
  rw [h2] at h1
  exact h1

end MinedBlockGetter

/-- Int.log 2 brackets a positive rational between consecutive powers of 2. -/
theorem log2_bounds (q : ℚ) (hq : 0 < q) :
    (2 : ℚ) ^ (Int.log 2 q) ≤ q ∧ q < (2 : ℚ) ^ (Int.log 2 q + 1) := by
  have h1 := Int.zpow_log_le_self (show (1 : ℕ) < 2 by norm_num) hq
  have h2 := Int.lt_zpow_succ_log_self (show (1 : ℕ) < 2 by norm_num) q
  norm_num at h1 h2
  exact ⟨h1, h2⟩

/-- Uniqueness of the binary exponent: explicit power-of-2 bounds determine Int.log 2. -/
theorem int_log2_unique (q : ℚ) (e : Int) (h1 : (2 : ℚ) ^ e ≤ q)
    (h2 : q < (2 : ℚ) ^ (e + 1)) : Int.log 2 q = e := by
  have hq : 0 < q := lt_of_lt_of_le (zpow_pos (by norm_num) e) h1
  obtain ⟨hA, hB⟩ := log2_bounds q hq
  by_contra hne
  rcases lt_or_gt_of_ne hne with h | h
  · have hle : (2 : ℚ) ^ (Int.log 2 q + 1) ≤ (2 : ℚ) ^ e :=
      zpow_le_zpow_right₀ (by norm_num) (by omega)
    linarith
  · have hle : (2 : ℚ) ^ (e + 1) ≤ (2 : ℚ) ^ (Int.log 2 q) :=
      zpow_le_zpow_right₀ (by norm_num) (by omega)
    linarith

/-- Representable positive dyadics (significand at most 2^53) are fixed by the rounding. -/
theorem roundQ53pos_dyadic (m : ℕ) (k : Int) (hm0 : 0 < m) (hm : m ≤ 2 ^ 53) :
    roundQ53pos ((m : ℚ) * 2 ^ k) = (m : ℚ) * 2 ^ k := by
  have htwo : (2 : ℚ) ≠ 0 := by norm_num
  set q : ℚ := (m : ℚ) * 2 ^ k with hqdef
  have hq : 0 < q := by
    rw [hqdef]
    have hmp : (0:ℚ) < (m:ℚ) := by exact_mod_cast hm0
    positivity
  set e := Int.log 2 q with he
  obtain ⟨hA, hB⟩ := log2_bounds q hq
  rw [← he] at hA hB
  have hmq : (m : ℚ) ≤ (2:ℚ) ^ (53 : ℕ) := by exact_mod_cast hm
  have hqle : q ≤ (2 : ℚ) ^ (k + 53) := by
    rw [hqdef]
    calc (m : ℚ) * 2 ^ k ≤ (2:ℚ) ^ (53:ℕ) * 2 ^ k := by
          exact mul_le_mul_of_nonneg_right hmq (le_of_lt (zpow_pos (by norm_num) k))
      _ = (2 : ℚ) ^ (k + 53) := by
          rw [zpow_add₀ htwo k 53, ← zpow_natCast (2:ℚ) 53]
          ring_nf
  have heub : e ≤ k + 53 := by
    by_contra hc
    push_neg at hc
    have hstep : (2 : ℚ) ^ (k + 53 + 1) ≤ (2 : ℚ) ^ e :=
      zpow_le_zpow_right₀ (by norm_num) (by omega)
    have hlt : (2 : ℚ) ^ (k + 53) < (2 : ℚ) ^ (k + 53 + 1) :=
      zpow_lt_zpow_right₀ (by norm_num) (by omega)
    linarith
  have key : ∃ M : Int, q * 2 ^ (52 - e) = (M : ℚ) := by
    rcases le_or_lt e (k + 52) with hle | hgt
    · refine ⟨(m : Int) * 2 ^ (k + 52 - e).toNat, ?_⟩
      push_cast
      rw [hqdef, ← zpow_natCast (2:ℚ) (k + 52 - e).toNat,
        Int.toNat_of_nonneg (by omega), mul_assoc, ← zpow_add₀ htwo]
      congr 2
      omega
    · have he2 : e = k + 53 := by omega
      have hpos : (0:ℚ) < (2:ℚ) ^ k := zpow_pos (by norm_num) k
      have hA2 := hA
      rw [he2, hqdef, zpow_add₀ htwo k 53,
        mul_comm ((2:ℚ) ^ k) ((2:ℚ) ^ (53:ℤ))] at hA2
      have h53 := (mul_le_mul_right hpos).mp hA2
      have hm3 : m = 2 ^ 53 := by
        have hc1 : ((2 ^ 53 : ℕ) : ℚ) ≤ (m : ℚ) := by
          calc ((2 ^ 53 : ℕ) : ℚ) = (2:ℚ) ^ (53:ℤ) := by
                push_cast
                norm_num
            _ ≤ (m : ℚ) := h53
        have hc2 : (2 ^ 53 : ℕ) ≤ m := by exact_mod_cast hc1
        omega
      refine ⟨2 ^ 52, ?_⟩
      have hmcast : (m : ℚ) = (2:ℚ) ^ (53 : ℤ) := by
        rw [hm3]
        push_cast
        norm_num
      have hMcast : (((2:ℤ) ^ 52 : ℤ) : ℚ) = (2:ℚ) ^ (52 : ℤ) := by
        push_cast
        norm_num
      rw [hqdef, hmcast, he2, hMcast, mul_assoc, ← zpow_add₀ htwo,
        ← zpow_add₀ htwo]
      congr 1
      omega
  obtain ⟨M, hMs⟩ := key
  show roundQ53pos q = q
  simp only [roundQ53pos, ← he, hMs, Int.floor_intCast, sub_self]
  norm_num
  rw [← hMs, mul_assoc, ← zpow_add₀ htwo]
  norm_num

/-- The scaled significand of a positive rational lies in the binade [2^52, 2^53). -/
theorem roundQ53pos_scaled_bounds (q : ℚ) (hq : 0 < q) :
    (2:ℚ) ^ (52 : ℤ) ≤ q * 2 ^ (52 - Int.log 2 q) ∧
    q * 2 ^ (52 - Int.log 2 q) < (2:ℚ) ^ (53 : ℤ) := by
  have htwo : (2 : ℚ) ≠ 0 := by norm_num
  obtain ⟨hA, hB⟩ := log2_bounds q hq
  set e := Int.log 2 q
  have hp : (0:ℚ) < 2 ^ (52 - e) := zpow_pos (by norm_num) _
  constructor
  · calc (2:ℚ) ^ (52:ℤ) = 2 ^ e * 2 ^ (52 - e) := by
              rw [← zpow_add₀ htwo]
              congr 1
              omega
      _ ≤ q * 2 ^ (52 - e) := mul_le_mul_of_nonneg_right hA (le_of_lt hp)
  · calc q * 2 ^ (52 - e) < 2 ^ (e+1) * 2 ^ (52 - e) :=
        mul_lt_mul_of_pos_right hB hp
      _ = (2:ℚ) ^ (53:ℤ) := by
        rw [← zpow_add₀ htwo]
        congr 1
        omega

/-- Integer bounds for the floored significand. -/
theorem roundQ53pos_floor_bounds (q : ℚ) (hq : 0 < q) :
    (2:ℤ) ^ 52 ≤ ⌊q * 2 ^ (52 - Int.log 2 q)⌋ ∧
    ⌊q * 2 ^ (52 - Int.log 2 q)⌋ < (2:ℤ) ^ 53 := by
  obtain ⟨h1, h2⟩ := roundQ53pos_scaled_bounds q hq
  constructor
  · rw [Int.le_floor]
    calc ((2^52 : ℤ) : ℚ) = (2:ℚ)^(52:ℤ) := by push_cast; norm_num
      _ ≤ _ := h1
  · rw [Int.floor_lt]
    calc q * 2 ^ (52 - Int.log 2 q) < (2:ℚ)^(53:ℤ) := h2
      _ = ((2^53 : ℤ) : ℚ) := by push_cast; norm_num

/-- Rounding a positive rational yields a positive double. -/
theorem roundQ53pos_pos (q : ℚ) (hq : 0 < q) : 0 < roundQ53pos q := by
  obtain ⟨hml, hmu⟩ := roundQ53pos_floor_bounds q hq
  simp only [roundQ53pos]
  apply mul_pos
  · have h1 : (0:ℤ) < 2 ^ 52 := by positivity
    have h2 : 0 < (if 1 / 2 < q * 2 ^ (52 - Int.log 2 q) - (⌊q * 2 ^ (52 - Int.log 2 q)⌋:ℚ) ∨
        (q * 2 ^ (52 - Int.log 2 q) - (⌊q * 2 ^ (52 - Int.log 2 q)⌋:ℚ) = 1/2 ∧
          ⌊q * 2 ^ (52 - Int.log 2 q)⌋ % 2 = 1) then
        ⌊q * 2 ^ (52 - Int.log 2 q)⌋ + 1 else ⌊q * 2 ^ (52 - Int.log 2 q)⌋) := by
      split_ifs <;> omega
    exact_mod_cast h2
  · exact zpow_pos (by norm_num) _

/-- Round-to-nearest-ties-even at precision 53 is monotone on positive rationals. -/
theorem roundQ53pos_mono (q1 q2 : ℚ) (h1 : 0 < q1) (h12 : q1 ≤ q2) :
    roundQ53pos q1 ≤ roundQ53pos q2 := by
  have htwo : (2:ℚ) ≠ 0 := by norm_num
  have h2 : 0 < q2 := lt_of_lt_of_le h1 h12
  have hee : Int.log 2 q1 ≤ Int.log 2 q2 := Int.log_mono_right h1 h12
  obtain ⟨hm1l, hm1u⟩ := roundQ53pos_floor_bounds q1 h1
  obtain ⟨hm2l, hm2u⟩ := roundQ53pos_floor_bounds q2 h2
  set e1 := Int.log 2 q1 with he1
  set e2 := Int.log 2 q2 with he2
  simp only [roundQ53pos, ← he1, ← he2]
  set s1 := q1 * 2 ^ (52 - e1) with hs1
  set s2 := q2 * 2 ^ (52 - e2) with hs2
  set M1 := ⌊s1⌋ with hM1
  set M2 := ⌊s2⌋ with hM2
  set r1 := s1 - (M1:ℚ) with hr1
  set r2 := s2 - (M2:ℚ) with hr2
  rcases eq_or_lt_of_le hee with heq | hlt
  · have hss : s1 ≤ s2 := by
      rw [hs1, hs2, ← heq]
      exact mul_le_mul_of_nonneg_right h12 (le_of_lt (zpow_pos (by norm_num) _))
    have hMM : M1 ≤ M2 := Int.floor_le_floor hss
    have hMa : (if 1/2 < r1 ∨ (r1 = 1/2 ∧ M1 % 2 = 1) then M1 + 1 else M1)
        ≤ (if 1/2 < r2 ∨ (r2 = 1/2 ∧ M2 % 2 = 1) then M2 + 1 else M2) := by
      rcases eq_or_lt_of_le hMM with hMeq | hMlt
      · have hrr : r1 ≤ r2 := by
          rw [hr1, hr2, ← hMeq]
          linarith
        rw [← hMeq]
        split_ifs with c1 c2
        · omega
        · exfalso
          rcases c1 with hlt' | ⟨heq', hodd⟩
          · exact c2 (Or.inl (lt_of_lt_of_le hlt' hrr))
          · rcases eq_or_lt_of_le hrr with hre | hrl
            · exact c2 (Or.inr ⟨by rw [← hre, heq'], hodd⟩)
            · rw [heq'] at hrl
              exact c2 (Or.inl hrl)
        · omega
        · omega
      · split_ifs <;> omega
    rw [← heq]
    exact mul_le_mul_of_nonneg_right (by exact_mod_cast hMa)
      (le_of_lt (zpow_pos (by norm_num) _))
  · have hb1 : (if 1/2 < r1 ∨ (r1 = 1/2 ∧ M1 % 2 = 1) then M1 + 1 else M1) ≤ 2 ^ 53 := by
      split_ifs <;> omega
    have hb2 : (2:ℤ) ^ 52 ≤ (if 1/2 < r2 ∨ (r2 = 1/2 ∧ M2 % 2 = 1) then M2 + 1 else M2) := by
      split_ifs <;> omega
    have c1 : ((if 1/2 < r1 ∨ (r1 = 1/2 ∧ M1 % 2 = 1) then M1 + 1 else M1 : ℤ) : ℚ)
        * 2 ^ (e1 - 52) ≤ (2:ℚ) ^ (e1 + 1) := by
      have step1 : ((if 1/2 < r1 ∨ (r1 = 1/2 ∧ M1 % 2 = 1) then M1 + 1 else M1 : ℤ) : ℚ)
          ≤ (2:ℚ) ^ (53:ℤ) := by
        calc ((if 1/2 < r1 ∨ (r1 = 1/2 ∧ M1 % 2 = 1) then M1 + 1 else M1 : ℤ) : ℚ)
            ≤ (((2:ℤ) ^ 53 : ℤ) : ℚ) := by exact_mod_cast hb1
          _ = (2:ℚ) ^ (53:ℤ) := by push_cast; norm_num
      have step2 : (2:ℚ) ^ (53:ℤ) * 2 ^ (e1 - 52) = (2:ℚ) ^ (e1 + 1) := by
        rw [← zpow_add₀ htwo]
        congr 1
        omega
      rw [← step2]
      exact mul_le_mul_of_nonneg_right step1 (le_of_lt (zpow_pos (by norm_num) _))
    have c2 : (2:ℚ) ^ e2 ≤ ((if 1/2 < r2 ∨ (r2 = 1/2 ∧ M2 % 2 = 1) then M2 + 1 else M2 : ℤ) : ℚ)
        * 2 ^ (e2 - 52) := by
      have step1 : (2:ℚ) ^ e2 = (2:ℚ) ^ (52:ℤ) * 2 ^ (e2 - 52) := by
        rw [← zpow_add₀ htwo]
        congr 1
        omega
      have step2 : (2:ℚ) ^ (52:ℤ)
          ≤ ((if 1/2 < r2 ∨ (r2 = 1/2 ∧ M2 % 2 = 1) then M2 + 1 else M2 : ℤ) : ℚ) := by
        calc (2:ℚ) ^ (52:ℤ) = (((2:ℤ) ^ 52 : ℤ) : ℚ) := by push_cast; norm_num
          _ ≤ _ := by exact_mod_cast hb2
      rw [step1]
      exact mul_le_mul_of_nonneg_right step2 (le_of_lt (zpow_pos (by norm_num) _))
    have c3 : (2:ℚ) ^ (e1 + 1) ≤ (2:ℚ) ^ e2 :=
      zpow_le_zpow_right₀ (by norm_num) (by omega)
    linarith

/-- Monotonicity of binary64 rounding on non-negative rationals. -/
theorem roundQ53_mono_nonneg (q1 q2 : ℚ) (h0 : 0 ≤ q1) (h12 : q1 ≤ q2) :
    roundQ53 q1 ≤ roundQ53 q2 := by
  rcases eq_or_lt_of_le h0 with hq1 | hq1
  · rw [roundQ53, roundQ53, if_neg (by linarith), if_neg (by linarith)]
    rcases lt_or_le 0 q2 with hq2 | hq2
    · rw [if_pos hq2]
      exact le_of_lt (roundQ53pos_pos q2 hq2)
    · have hq20 : q2 = 0 := le_antisymm hq2 (by linarith)
      rw [hq20]
      simp
  · rw [roundQ53, roundQ53, if_pos hq1, if_pos (lt_of_lt_of_le hq1 h12)]
    exact roundQ53pos_mono _ _ hq1 h12

/-- Representable dyadics of either sign are fixed by binary64 rounding. -/
theorem roundQ53_dyadic (n : Int) (k : Int) (h : n.natAbs ≤ 2 ^ 53) :
    roundQ53 ((n : ℚ) * 2 ^ k) = (n : ℚ) * 2 ^ k := by
  rcases lt_trichotomy n 0 with hn | hn | hn
  · have hncast : ((n:ℚ)) < 0 := by exact_mod_cast hn
    have hq : (n : ℚ) * 2 ^ k < 0 :=
      mul_neg_of_neg_of_pos hncast (zpow_pos (by norm_num) k)
    rw [roundQ53, if_neg (by linarith), if_pos hq]
    have habs : ((n.natAbs : ℕ) : ℚ) = -((n:ℚ)) := by
      rw [Int.cast_natAbs, Int.cast_abs]
      exact abs_of_neg hncast
    have hrw : -((n:ℚ) * 2 ^ k) = ((n.natAbs : ℕ) : ℚ) * 2 ^ k := by
      rw [habs]
      ring
    rw [hrw, roundQ53pos_dyadic n.natAbs k (by omega) h, ← hrw]
    ring
  · rw [hn]
    simp [roundQ53]
  · have hncast : (0:ℚ) < (n:ℚ) := by exact_mod_cast hn
    have hq : 0 < (n : ℚ) * 2 ^ k :=
      mul_pos hncast (zpow_pos (by norm_num) k)
    rw [roundQ53, if_pos hq]
    have habs : ((n.natAbs : ℕ) : ℚ) = (n:ℚ) := by
      rw [Int.cast_natAbs, Int.cast_abs]
      exact abs_of_pos hncast
    rw [← habs, roundQ53pos_dyadic n.natAbs k (by omega) h]

/-- Integers of magnitude at most 2^53 are exact doubles. -/
theorem roundQ53_intCast (n : Int) (h : n.natAbs ≤ 2 ^ 53) :
    roundQ53 ((n : ℚ)) = (n : ℚ) := by
  have h0 := roundQ53_dyadic n 0 h
  simpa using h0

/-- Integers of magnitude at most 2^53 are exact doubles. -/
theorem roundQ53_intCast_div_two (n : Int) (h : n.natAbs ≤ 2 ^ 53) :
    roundQ53 ((n : ℚ) / 2) = (n : ℚ) / 2 := by
  have h2 : (n : ℚ) / 2 = (n : ℚ) * 2 ^ (-1 : ℤ) := by
    rw [zpow_neg, zpow_one]
    ring
  rw [h2, roundQ53_dyadic n (-1) h]

/-- Concrete evaluation of the rounding in the round-down case: once the binade, the floored significand and a remainder below one half are exhibited, the rounded value is determined. -/
theorem roundQ53pos_eval (q : ℚ) (e M : ℤ) (hq : 0 < q)
    (hlb : (2:ℚ) ^ e ≤ q) (hub : q < (2:ℚ) ^ (e+1))
    (hfl : ⌊q * 2 ^ (52 - e)⌋ = M)
    (hr : q * 2 ^ (52 - e) - (M:ℚ) < 1/2) :
    roundQ53pos q = (M : ℚ) * 2 ^ (e - 52) := by
  have hlog := int_log2_unique q e hlb hub
  simp only [roundQ53pos, hlog, hfl]
  rw [if_neg]
  intro hcon
  rcases hcon with h | ⟨h, _⟩ <;> linarith

/-- Concrete evaluation of the rounding in the round-down case: once the binade, the floored significand and a remainder below one half are exhibited, the rounded value is determined. -/
theorem roundQ53pos_eval_up (q : ℚ) (e M : ℤ) (hq : 0 < q)
    (hlb : (2:ℚ) ^ e ≤ q) (hub : q < (2:ℚ) ^ (e+1))
    (hfl : ⌊q * 2 ^ (52 - e)⌋ = M)
    (hr : 1/2 < q * 2 ^ (52 - e) - (M:ℚ)) :
    roundQ53pos q = ((M + 1 : ℤ) : ℚ) * 2 ^ (e - 52) := by
  have hlog := int_log2_unique q e hlb hub
  simp only [roundQ53pos, hlog, hfl]
  rw [if_pos (Or.inl hr)]

namespace Slot0

/-- Claim C2: for every field tuple with sqrtPriceX96 < 2^160, tick in
[-2^23, 2^23 - 1] and both fees < 2^24, packing the fields into the
fixed 256-bit layout and applying unpack_slot0 recovers exactly the
original tuple; sign extension subtracts 2^24 exactly when bit 23 of
the 24-bit tick field is set. -/
theorem unpack_pack_roundtrip (s : Nat) (t : Int) (pf lp : Nat)
    (hs : s < 2 ^ 160) (ht1 : -2 ^ 23 ≤ t) (ht2 : t < 2 ^ 23)
    (hpf : pf < 2 ^ 24) (hlp : lp < 2 ^ 24) :
    unpack_slot0 (pack_slot0 s t pf lp) = (s, t, pf, lp) := by
  have h1 : pack_slot0 s t pf lp % 2 ^ 160 = s := by
    unfold pack_slot0; omega
  have h2 : pack_slot0 s t pf lp / 2 ^ 160 % 2 ^ 24 = (t % 2 ^ 24).toNat := by
    unfold pack_slot0; omega
  have h3 : pack_slot0 s t pf lp / 2 ^ 184 % 2 ^ 24 = pf := by
    unfold pack_slot0; omega
  have h4 : pack_slot0 s t pf lp / 2 ^ 208 % 2 ^ 24 = lp := by
    unfold pack_slot0; omega
  have hbit : ((t % 2 ^ 24).toNat &&& (1 <<< 23) ≠ 0) ↔ 2 ^ 23 ≤ (t % 2 ^ 24).toNat := by
    rw [Nat.one_shiftLeft, Nat.and_two_pow, Nat.testBit_to_div_mod]
    simp only [ne_eq, mul_eq_zero, Bool.toNat_eq_zero, decide_eq_false_iff_not]
    omega
  simp only [unpack_slot0, h1, h2, h3, h4, Prod.mk.injEq, true_and, and_true]
  split_ifs with hb
  · have := hbit.mp hb
    omega
  · have hnot : ¬ 2 ^ 23 ≤ (t % 2 ^ 24).toNat := fun hc => hb (hbit.mpr hc)
    omega

/-- Witness for C2 at a concrete tuple with a negative tick. -/
theorem unpack_pack_roundtrip_witness :
    unpack_slot0 (pack_slot0 1234 (-2) 5 6) = (1234, -2, 5, 6) :=
  unpack_pack_roundtrip 1234 (-2) 5 6 (by norm_num) (by norm_num)
    (by norm_num) (by norm_num) (by norm_num)

/-- Attempt-count bound for the retry loop: at most one oracle call per
unit of fuel. -/
theorem retryAux_calls_le (fetch : Nat → Option (List Nat)) (slot : String)
    (retries : Nat) : ∀ fuel attempt, (retryAux fetch slot retries attempt fuel).2 ≤ fuel := by
  intro fuel
  induction fuel with
  | zero => intro a; simp [retryAux]
  | succ n ih =>
    intro a
    simp only [retryAux]
    cases h : fetch a with
    | some d => simp
    | none =>
      simp only
      have := ih (a + 1)
      omega

/-- If the first k attempts fail and attempt k succeeds with word d,
the loop stops after k + 1 calls and returns the big-endian integer. -/
theorem retryAux_success (fetch : Nat → Option (List Nat)) (slot : String)
    (retries : Nat) :
    ∀ k fuel attempt d, k < fuel →
      (∀ j, j < k → fetch (attempt + j) = none) → fetch (attempt + k) = some d →
      retryAux fetch slot retries attempt fuel = (Except.ok (bytesToNatBE d), k + 1) := by
  intro k
  induction k with
  | zero =>
    intro fuel attempt d hk hnone hsome
    match fuel, hk with
    | f + 1, _ =>
      rw [Nat.add_zero] at hsome
      simp [retryAux, hsome]
  | succ k ih =>
    intro fuel attempt d hk hnone hsome
    match fuel, hk with
    | f + 1, _ =>
      have h0 : fetch attempt = none := by
        have := hnone 0 (by omega)
        simpa using this
      have hrec : retryAux fetch slot retries (attempt + 1) f
          = (Except.ok (bytesToNatBE d), k + 1) := by
        refine ih f (attempt + 1) d (by omega) (fun j hj => ?_) ?_
        · have := hnone (j + 1) (by omega)
          rw [show attempt + 1 + j = attempt + (j + 1) by omega]
          exact this
        · rw [show attempt + 1 + k = attempt + (k + 1) by omega]
          exact hsome
      simp [retryAux, h0, hrec]

/-- If every attempt the fuel allows fails, the loop exhausts the fuel
and raises the RuntimeError payload. -/
theorem retryAux_allfail (fetch : Nat → Option (List Nat)) (slot : String)
    (retries : Nat) :
    ∀ fuel attempt, (∀ j, j < fuel → fetch (attempt + j) = none) →
      retryAux fetch slot retries attempt fuel = (Except.error (slot, retries), fuel) := by
  intro fuel
  induction fuel with
  | zero => intro a _; simp [retryAux]
  | succ n ih =>
    intro a h
    have h0 : fetch a = none := by
      have := h 0 (by omega)
      simpa using this
    have hrec := ih (a + 1) fun j hj => by
      rw [show a + 1 + j = a + (j + 1) by omega]
      exact h (j + 1) (by omega)
    simp [retryAux, h0, hrec]

/-- Claim C6: with the default 5 retries, get_storage_with_retry makes
at most 5 oracle calls; if the first success is at attempt k (counting
from 0, so attempt number k + 1 ≤ 5) it returns the big-endian integer
of that attempt's 32-byte word having made exactly k + 1 calls; if all
5 attempts fail it raises the error carrying the slot locator and the
attempt count after exactly 5 calls, returning no value. -/
theorem get_storage_with_retry_spec (fetch : Nat → Option (List Nat)) (slot : String) :
    (get_storage_with_retry fetch slot 5).2 ≤ 5 ∧
    (∀ k d, k < 5 → (∀ j, j < k → fetch j = none) → fetch k = some d →
      get_storage_with_retry fetch slot 5 = (Except.ok (bytesToNatBE d), k + 1)) ∧
    ((∀ j, j < 5 → fetch j = none) →
      get_storage_with_retry fetch slot 5 = (Except.error (slot, 5), 5)) := by
  refine ⟨retryAux_calls_le fetch slot 5 5 0, fun k d hk h1 h2 => ?_, fun h => ?_⟩
  · unfold get_storage_with_retry
    refine retryAux_success fetch slot 5 k 5 0 d hk (fun j hj => ?_) ?_
    · simpa using h1 j hj
    · simpa using h2
  · unfold get_storage_with_retry
    exact retryAux_allfail fetch slot 5 5 0 fun j hj => by simpa using h j hj

/-- Witness for C6: the oracle fails twice then succeeds, so the read
returns after exactly 3 calls. -/
theorem get_storage_with_retry_spec_witness :
    get_storage_with_retry (fun n => if n = 2 then some [1, 0] else none) "slot0" 5
      = (Except.ok (bytesToNatBE [1, 0]), 3) :=
  (get_storage_with_retry_spec (fun n => if n = 2 then some [1, 0] else none)
    "slot0").2.1 2 [1, 0] (by omega) (by decide) (by decide)

/-- Exact evaluation: the price of sqrtPriceX96 = 2^100 is the exact
double 256 (the quotient 2^200 / 2^192 is a representable integer). -/
theorem price_pow100 : sqrtPriceX96_to_price (2 ^ 100) = 256 := by
  have harg : (((2:ℕ) ^ 100 : ℕ) : ℚ) ^ 2 / ((Q192 : ℕ) : ℚ) = ((256 : ℤ) : ℚ) := by
    simp only [Q192]
    push_cast
    norm_num
  rw [sqrtPriceX96_to_price, harg, roundQ53_intCast 256 (by norm_num)]
  norm_num

/-- Exact evaluation: the price of sqrtPriceX96 = 2^100 + 1 is also
256: the exact quotient (2^100 + 1)^2 / 2^192 = 256 + (2^101 + 1)/2^192
exceeds 256 by far less than half an ulp, so binary64 rounding of the
float true division collapses it onto 256. -/
theorem price_pow100_succ : sqrtPriceX96_to_price (2 ^ 100 + 1) = 256 := by
  rw [sqrtPriceX96_to_price]
  simp only [Q192]
  have hq : (0:ℚ) < (((2:ℕ) ^ 100 + 1 : ℕ) : ℚ) ^ 2 / (((2:ℕ) ^ 192 : ℕ) : ℚ) := by
    positivity
  rw [roundQ53, if_pos hq]
  have hlb : (2:ℚ) ^ (8:ℤ) ≤ (((2:ℕ) ^ 100 + 1 : ℕ) : ℚ) ^ 2 / (((2:ℕ) ^ 192 : ℕ) : ℚ) := by
    push_cast
    norm_num
  have hub : (((2:ℕ) ^ 100 + 1 : ℕ) : ℚ) ^ 2 / (((2:ℕ) ^ 192 : ℕ) : ℚ) < (2:ℚ) ^ ((8:ℤ)+1) := by
    push_cast
    norm_num
  have hfl : ⌊(((2:ℕ) ^ 100 + 1 : ℕ) : ℚ) ^ 2 / (((2:ℕ) ^ 192 : ℕ) : ℚ) * 2 ^ ((52:ℤ) - 8)⌋
      = 2 ^ 52 := by
    rw [Int.floor_eq_iff]
    constructor
    · push_cast
      norm_num
    · push_cast
      norm_num
  have hr : (((2:ℕ) ^ 100 + 1 : ℕ) : ℚ) ^ 2 / (((2:ℕ) ^ 192 : ℕ) : ℚ) * 2 ^ ((52:ℤ) - 8)
      - (((2:ℤ) ^ 52 : ℤ) : ℚ) < 1/2 := by
    push_cast
    norm_num
  rw [roundQ53pos_eval _ 8 (2^52) hq hlb hub hfl hr]
  norm_num

/-- Claim C7 counterexample: the inputs 2^100 < 2^100 + 1, both below
2^160, are mapped to the same price 256.0, so sqrtPriceX96_to_price as
the program computes it (one binary64 rounding of sq^2 / 2^192) is not
strictly increasing on [0, 2^160). -/
theorem sqrtPrice_strict_claim_counterexample :
    ¬ (sqrtPriceX96_to_price (2 ^ 100) < sqrtPriceX96_to_price (2 ^ 100 + 1)) ∧
    (2:ℕ) ^ 100 < 2 ^ 100 + 1 ∧ (2:ℕ) ^ 100 + 1 < 2 ^ 160 ∧
    sqrtPriceX96_to_price (2 ^ 100) = 256 ∧
    sqrtPriceX96_to_price (2 ^ 100 + 1) = 256 := by
  refine ⟨?_, by norm_num, by norm_num, price_pow100, price_pow100_succ⟩
  rw [price_pow100, price_pow100_succ]
  exact lt_irrefl _

/-- Claim C7 as amended: sqrtPriceX96_to_price is (non-strictly)
monotone on [0, 2^160): the exact quotient sq^2 / 2^192 is monotone in
sq and binary64 round-to-nearest-ties-even is monotone, but distinct
neighbouring inputs may collapse onto the same double. -/
theorem sqrtPrice_monotone (a b : Nat) (hab : a ≤ b) (hb : b < 2 ^ 160) :
    sqrtPriceX96_to_price a ≤ sqrtPriceX96_to_price b := by
  unfold sqrtPriceX96_to_price
  apply roundQ53_mono_nonneg
  · positivity
  · have h0 : (0:ℚ) ≤ (a:ℚ) := by positivity
    have hc : (a:ℚ) ≤ (b:ℚ) := by exact_mod_cast hab
    have h1 : ((a:ℚ)) ^ 2 ≤ ((b:ℚ)) ^ 2 := pow_le_pow_left h0 hc 2
    have hQ : (0:ℚ) < ((Q192:ℕ):ℚ) := by
      simp only [Q192]
      positivity
    exact (div_le_div_right hQ).mpr h1

/-- Witness for the amended C7 at the pair (3, 5). -/
theorem sqrtPrice_monotone_witness :
    sqrtPriceX96_to_price 3 ≤ sqrtPriceX96_to_price 5 :=
  sqrtPrice_monotone 3 5 (by norm_num) (by norm_num)

end Slot0

namespace PriceStore

/-- Truncation of a rational that happens to be an integer. -/
theorem pyInt_eq (q : ℚ) (n : Int) (h : q = (n : ℚ)) : pyInt q = n := by
  unfold pyInt
  rw [h, Rat.num_intCast, Rat.den_intCast]
  simp

/-- Truncation toward zero agrees with the floor on non-negative
rationals. -/
theorem pyInt_eq_floor (q : ℚ) (h : 0 ≤ q) : pyInt q = ⌊q⌋ := by
  rw [pyInt, Rat.floor_def]
  have hnum : 0 ≤ q.num := Rat.num_nonneg.mpr h
  obtain ⟨m, hm⟩ := Int.eq_ofNat_of_zero_le hnum
  rw [hm]
  rfl

/-- Evaluation of one binary64 rounding: the double nearest to 49/10
(the seconds-per-block 211680 / 43200 = 4.9) is the dyadic
2758454771764429 / 2^49, slightly above 4.9. -/
theorem spb49 : roundQ53 ((49:ℚ)/10) = (2758454771764429:ℚ)/562949953421312 := by
  have hq : (0:ℚ) < 49/10 := by norm_num
  have hfl : ⌊(49:ℚ)/10 * 2 ^ ((52:ℤ) - 2)⌋ = 5516909543528857 := by
    rw [Int.floor_eq_iff]
    constructor <;> norm_num
  have hr : 1/2 < (49:ℚ)/10 * 2 ^ ((52:ℤ) - 2) - ((5516909543528857:ℤ):ℚ) := by
    push_cast
    norm_num
  rw [roundQ53, if_pos hq,
    roundQ53pos_eval_up ((49:ℚ)/10) 2 5516909543528857 hq (by norm_num) (by norm_num) hfl hr]
  push_cast
  norm_num

/-- Evaluation of the second rounding: dividing the exact double 4900.0
by the double 4.9 and rounding once yields 8796093022207999 / 2^43,
slightly below 1000. -/
theorem q2eval :
    roundQ53 ((2758454771764428800:ℚ)/2758454771764429)
      = (8796093022207999:ℚ)/8796093022208 := by
  have hq : (0:ℚ) < (2758454771764428800:ℚ)/2758454771764429 := by norm_num
  have hfl : ⌊(2758454771764428800:ℚ)/2758454771764429 * 2 ^ ((52:ℤ) - 9)⌋
      = 8796093022207999 := by
    rw [Int.floor_eq_iff]
    constructor <;> norm_num
  have hr : (2758454771764428800:ℚ)/2758454771764429 * 2 ^ ((52:ℤ) - 9)
      - ((8796093022207999:ℤ):ℚ) < 1/2 := by
    push_cast
    norm_num
  rw [roundQ53, if_pos hq,
    roundQ53pos_eval ((2758454771764428800:ℚ)/2758454771764429) 9 8796093022207999 hq
      (by norm_num) (by norm_num) hfl hr]
  push_cast
  norm_num

/-- Claim C8 counterexample: at currentBlock = 1000, currentTimestamp =
1000, target 100 seconds in the past and an oracle under which the
reference block carries the current timestamp (elapsed time 0 with a
positive denominator 999), the code still falls back to 2.0 seconds per
block and returns 950, while the claim's reading - fallback exactly when
the denominator is non-positive - yields 1000. -/
theorem estimate_block_claim_counterexample :
    estimate_block_from_timestamp (fun _ => 1000) 900 1000 1000 = 950 ∧
    claimEstimate (fun _ => 1000) 900 1000 1000 = 1000 := by
  constructor
  · simp only [estimate_block_from_timestamp]
    rw [if_neg (by decide), roundQ53_intCast (1000 - 900) (by norm_num),
      roundQ53_intCast_div_two (1000 - 900) (by norm_num),
      pyInt_eq (((1000 - 900 : Int) : ℚ) / 2) 50 (by norm_num)]
    decide
  · have hm : max (1 : Int) (1000 - 43200) = 1 := by decide
    simp only [claimEstimate, hm]
    rw [if_pos (by decide)]
    have h0 : (((1000 : Int) : ℚ) - ((900 : Int) : ℚ))
        / (((1000 - 1000 : Int) : ℚ) / ((1000 - 1 : Int) : ℚ)) = 0 := by
      norm_num
    rw [h0, Int.floor_zero]
    decide

/-- Claim C8 as amended: the reference block is max 1 (currentBlock -
43200); secondsPerBlock is the binary64 rounding of elapsed / blockDiff
with the exact fallback 2.0 taken when the block difference or the
elapsed time is non-positive; the result is max 1 (currentBlock -
int(timeDiff / secondsPerBlock)) where the int-to-float conversion and
the float division each round once and int() truncates toward zero.
Clauses: the result is always at least 1; in the fallback case with
|timeDiff| at most 2^53 the float arithmetic is exact, giving
max 1 (currentBlock - trunc(timeDiff / 2)); with currentBlock = 1000
(reference block 1) observed 1998 seconds after the reference (exactly
2.0 seconds per block over 999 blocks) a target 100 seconds in the past
yields block 950; and with currentBlock = 50000 (reference block 6800)
observed 211680 seconds later (4.9 seconds per block over 43200
blocks) a target 4900 seconds in the past yields 49001, not 49000,
because the doubles compute 4900 / 4.9 as 999.9999999999999 and int()
truncates it to 999. -/
theorem estimate_block_characterization (getTs : Int → Int) (tt cb ct : Int) :
    1 ≤ estimate_block_from_timestamp getTs tt cb ct ∧
    (¬ (0 < cb - max 1 (cb - 43200) ∧ 0 < ct - getTs (max 1 (cb - 43200))) →
      (ct - tt).natAbs ≤ 2 ^ 53 →
      estimate_block_from_timestamp getTs tt cb ct
        = max 1 (cb - pyInt (((ct - tt : Int) : ℚ) / 2))) ∧
    (cb = 1000 → getTs 1 = ct - 1998 → tt = ct - 100 →
      estimate_block_from_timestamp getTs tt cb ct = 950) ∧
    (cb = 50000 → getTs 6800 = ct - 211680 → tt = ct - 4900 →
      estimate_block_from_timestamp getTs tt cb ct = 49001) := by
  refine ⟨?_, fun h hsmall => ?_, fun h1 h2 h3 => ?_, fun h1 h2 h3 => ?_⟩
  · simp only [estimate_block_from_timestamp]
    exact le_max_left 1 _
  · simp only [estimate_block_from_timestamp]
    rw [if_neg h, roundQ53_intCast (ct - tt) hsmall,
      roundQ53_intCast_div_two (ct - tt) hsmall]
  · subst h1
    subst h3
    have hm : max (1 : Int) (1000 - 43200) = 1 := by decide
    simp only [estimate_block_from_timestamp, hm, h2, sub_sub_cancel]
    rw [if_pos (by decide),
      show (((1998 : Int) : ℚ) / ((1000 - 1 : Int) : ℚ)) = ((2:ℤ):ℚ) by norm_num,
      roundQ53_intCast 2 (by norm_num), roundQ53_intCast 100 (by norm_num),
      show (((100 : Int) : ℚ) / ((2:ℤ):ℚ)) = ((50:ℤ):ℚ) by norm_num,
      roundQ53_intCast 50 (by norm_num), pyInt_eq (((50:ℤ):ℚ)) 50 rfl]
    decide
  · subst h1
    subst h3
    have hm : max (1 : Int) (50000 - 43200) = 6800 := by decide
    simp only [estimate_block_from_timestamp, hm, h2, sub_sub_cancel]
    rw [if_pos (by decide),
      show (((211680 : Int) : ℚ) / ((50000 - 6800 : Int) : ℚ)) = (49:ℚ)/10 by norm_num,
      spb49, roundQ53_intCast 4900 (by norm_num),
      show (((4900 : Int) : ℚ) / ((2758454771764429:ℚ)/562949953421312))
        = (2758454771764428800:ℚ)/2758454771764429 by norm_num,
      q2eval, pyInt_eq_floor ((8796093022207999:ℚ)/8796093022208) (by norm_num),
      show ⌊(8796093022207999:ℚ)/8796093022208⌋ = 999 by
        rw [Int.floor_eq_iff]
        constructor <;> norm_num]
    decide

/-- Witness for the amended C8 at a concrete oracle realizing the
4.9-seconds-per-block scenario. -/
theorem estimate_block_characterization_witness :
    estimate_block_from_timestamp (fun _ => 0) 206780 50000 211680 = 49001 :=
  (estimate_block_characterization (fun _ => 0) 206780 50000 211680).2.2.2
    rfl (by norm_num) (by norm_num)

/-- The code's tolerance test, rephrased: some target hour is within
tolerance on the minute-resolution clock. -/
theorem is_target_time_true_iff (ts tol : Nat) :
    is_target_time ts tol = true ↔
      circDistMin (todMin ts) 0 ≤ tol ∨ circDistMin (todMin ts) 360 ≤ tol ∨
      circDistMin (todMin ts) 720 ≤ tol ∨ circDistMin (todMin ts) 1080 ≤ tol := by
  have hm : ts / 3600 % 24 * 60 + ts / 60 % 60 = ts / 60 % 1440 := by omega
  simp only [is_target_time, TARGET_HOURS, List.any_cons, List.any_nil,
    Bool.or_false, Bool.or_eq_true, decide_eq_true_eq, hm, circDistMin, todMin]

/-- Claim C10 counterexample: the timestamp 23459 (06:30:59 UTC) is
strictly more than 30 minutes (1800 seconds) from every anchor time of
day, yet is_target_time accepts it because the comparison discards the
seconds within the minute. -/
theorem is_target_time_claim_counterexample :
    (∀ a ∈ anchorsSec, 1800 < circDistSec (todSec 23459) a) ∧
    is_target_time 23459 30 = true := by
  decide

/-- Claim C10 as amended: the window is closed at both ends and wraps
across midnight - any timestamp whose UTC time of day is exactly 30
minutes before or after an anchor is accepted - and every timestamp
whose minute-truncated time of day (hour and minute only, seconds
discarded) is strictly more than 30 minutes from all four anchors is
rejected. -/
theorem is_target_time_window (ts : Nat) :
    ((∃ a ∈ anchorsSec, circDistSec (todSec ts) a = 1800) →
      is_target_time ts 30 = true) ∧
    ((∀ th ∈ TARGET_HOURS, 30 < circDistMin (todMin ts) (th * 60)) →
      is_target_time ts 30 = false) := by
  constructor
  · rintro ⟨a, ha, hd⟩
    rw [is_target_time_true_iff]
    simp only [anchorsSec, List.mem_cons, List.not_mem_nil, or_false] at ha
    simp only [circDistSec, todSec] at hd
    simp only [circDistMin, todMin]
    rcases ha with rfl | rfl | rfl | rfl <;> omega
  · intro h
    have h0 := h 0 (by simp [TARGET_HOURS])
    have h6 := h 6 (by simp [TARGET_HOURS])
    have h12 := h 12 (by simp [TARGET_HOURS])
    have h18 := h 18 (by simp [TARGET_HOURS])
    simp only [circDistMin, todMin] at h0 h6 h12 h18
    rw [Bool.eq_false_iff]
    intro htrue
    rw [is_target_time_true_iff] at htrue
    simp only [circDistMin, todMin] at htrue
    omega

/-- Witness for the amended C10: 23:30:00 UTC, exactly 30 minutes before
the midnight anchor, is accepted. -/
theorem is_target_time_window_witness : is_target_time 84600 30 = true :=
  (is_target_time_window 84600).1 (by decide)

/-- Inserting always grows the list by one (also past the end). -/
theorem insAt_length (n : Nat) (a : α) (l : List α) :
    (insAt n a l).length = l.length + 1 := by
  induction n generalizing l with
  | zero => simp [insAt]
  | succ n ih =>
    cases l with
    | nil => simp [insAt]
    | cons x xs => simp [insAt, ih]

/-- Inserting anywhere is a permutation of consing. -/
theorem insAt_perm (n : Nat) (a : α) (l : List α) :
    List.Perm (insAt n a l) (a :: l) := by
  induction n generalizing l with
  | zero => exact List.Perm.refl _
  | succ n ih =>
    cases l with
    | nil => exact List.Perm.refl _
    | cons x xs =>
      exact List.Perm.trans (List.Perm.cons x (ih xs)) (List.Perm.swap a x xs)

theorem countP_insAt (p : α → Bool) (n : Nat) (a : α) (l : List α) :
    (insAt n a l).countP p = (a :: l).countP p :=
  (insAt_perm n a l).countP_eq p

theorem mem_insAt (b : α) (n : Nat) (a : α) (l : List α) :
    b ∈ insAt n a l ↔ b = a ∨ b ∈ l := by
  rw [(insAt_perm n a l).mem_iff]
  simp

theorem insAt_ne_nil (n : Nat) (a : α) (l : List α) : insAt n a l ≠ [] := by
  intro h
  have := insAt_length n a l
  rw [h] at this
  simp at this

theorem insAt_isEmpty (n : Nat) (a : α) (l : List α) :
    (insAt n a l).isEmpty = false := by
  cases h : insAt n a l with
  | nil => exact absurd h (insAt_ne_nil n a l)
  | cons _ _ => rfl

/-- The source's scan-position insert keeps the timestamps sorted. -/
theorem sorted_insAt_findInsertPos (t : Nat) (l : List Nat)
    (h : List.Sorted (· ≤ ·) l) :
    List.Sorted (· ≤ ·) (insAt (findInsertPos t l) t l) := by
  induction l with
  | nil => simp [insAt, findInsertPos]
  | cons x xs ih =>
    rw [findInsertPos]
    by_cases hx : t < x
    · rw [if_pos hx]
      show List.Sorted (· ≤ ·) (t :: x :: xs)
      refine List.Pairwise.cons ?_ h
      intro b hb
      rcases List.mem_cons.mp hb with rfl | hbxs
      · omega
      · exact le_trans (le_of_lt hx) (List.rel_of_sorted_cons h b hbxs)
    · rw [if_neg hx]
      show List.Sorted (· ≤ ·) (x :: insAt (findInsertPos t xs) t xs)
      refine List.Pairwise.cons ?_ (ih (List.Sorted.of_cons h))
      intro b hb
      rcases (mem_insAt b _ t xs).mp hb with rfl | hbx
      · omega
      · exact List.rel_of_sorted_cons h b hbx

/-- Under equal lengths, the first projection of the co-indexed triple
list is the timestamp list itself. -/
theorem toTriples_fst (ts : List Nat) : ∀ (bs : List Nat) (ps : List α),
    ts.length = bs.length → ts.length = ps.length →
    (toTriples ts bs ps).map (fun x => x.1) = ts := by
  induction ts with
  | nil => intro bs ps _ _; cases bs <;> cases ps <;> simp [toTriples]
  | cons t ts ih =>
    intro bs ps h1 h2
    cases bs with
    | nil => simp at h1
    | cons b bs =>
      cases ps with
      | nil => simp at h2
      | cons p ps =>
        simp only [toTriples, List.map_cons, List.cons.injEq, true_and]
        exact ih bs ps (by simpa using h1) (by simpa using h2)

/-- Filtering on the first component commutes with projecting it. -/
theorem map_fst_filter (p : Nat → Bool) (l : List (Nat × Nat × α)) :
    (l.filter fun x => p x.1).map (fun x => x.1)
      = (l.map fun x => x.1).filter p := by
  induction l with
  | nil => simp
  | cons x xs ih =>
    by_cases hx : p x.1
    · simp [List.filter_cons, hx, ih]
    · simp [List.filter_cons, hx, ih]

theorem map_fst_filter_target (l : List (Nat × Nat × α)) :
    (l.filter fun x => is_target_time x.1 30).map (fun x => x.1)
      = (l.map fun x => x.1).filter (fun t => is_target_time t 30) := by
  induction l with
  | nil => simp
  | cons x xs ih =>
    by_cases hx : is_target_time x.1 30
    · simp [List.filter_cons, hx, ih]
    · simp [List.filter_cons, hx, ih]

theorem tgtTimes_eq (ts bs : List Nat) (ps : List α)
    (h1 : ts.length = bs.length) (h2 : ts.length = ps.length) :
    ((toTriples ts bs ps).filter fun x => is_target_time x.1 30).map (fun x => x.1)
      = ts.filter fun t => is_target_time t 30 := by
  rw [map_fst_filter_target, toTriples_fst ts bs ps h1 h2]

/-- Re-zipping the three projections of a triple list gives it back. -/
theorem toTriples_of_maps (l : List (Nat × Nat × α)) :
    toTriples (l.map fun x => x.1) (l.map fun x => x.2.1)
      (l.map fun x => x.2.2) = l := by
  induction l with
  | nil => simp [toTriples]
  | cons x xs ih => simp [toTriples, ih]

/-- Parallel insertion at a common position commutes with zipping. -/
theorem toTriples_insAt (a b : Nat) (c : α) :
    ∀ (n : Nat) (l1 l2 : List Nat) (l3 : List α),
    l1.length = l2.length → l1.length = l3.length →
    toTriples (insAt n a l1) (insAt n b l2) (insAt n c l3)
      = insAt n (a, b, c) (toTriples l1 l2 l3) := by
  intro n
  induction n with
  | zero => intro l1 l2 l3 _ _; simp [insAt, toTriples]
  | succ n ih =>
    intro l1 l2 l3 h1 h2
    cases l1 with
    | nil =>
      cases l2 with
      | nil =>
        cases l3 with
        | nil => simp [insAt, toTriples]
        | cons _ _ => simp at h2
      | cons _ _ => simp at h1
    | cons x xs =>
      cases l2 with
      | nil => simp at h1
      | cons y ys =>
        cases l3 with
        | nil => simp at h2
        | cons z zs =>
          simp only [insAt, toTriples, List.cons.injEq, true_and]
          exact ih xs ys zs (by simpa using h1) (by simpa using h2)

theorem filter_insAt_neg (p : α → Bool) (n : Nat) (a : α) (l : List α)
    (ha : p a = false) : (insAt n a l).filter p = l.filter p := by
  induction n generalizing l with
  | zero => simp [insAt, List.filter_cons, ha]
  | succ n ih =>
    cases l with
    | nil => simp [insAt, List.filter_cons, ha]
    | cons x xs => simp [insAt, List.filter_cons, ih]

theorem filter_insAt_pos_of_none (p : α → Bool) (n : Nat) (a : α) (l : List α)
    (ha : p a = true) (hl : l.filter p = []) :
    (insAt n a l).filter p = [a] := by
  induction n generalizing l with
  | zero => simp [insAt, List.filter_cons, ha, hl]
  | succ n ih =>
    cases l with
    | nil => simp [insAt, List.filter_cons, ha]
    | cons x xs =>
      rw [List.filter_cons] at hl
      by_cases hx : p x
      · rw [if_pos hx] at hl
        simp at hl
      · rw [if_neg hx] at hl
        simp [insAt, List.filter_cons, hx, ih xs hl]

theorem filter_filter_self (p : α → Bool) (l : List α) :
    (l.filter p).filter p = l.filter p := by
  induction l with
  | nil => simp
  | cons x xs ih => by_cases h : p x <;> simp [List.filter_cons, h, ih]

theorem filter_not_of_filter (p : α → Bool) (l : List α) :
    (l.filter p).filter (fun a => ! p a) = [] := by
  induction l with
  | nil => simp
  | cons x xs ih => by_cases h : p x <;> simp [List.filter_cons, h, ih]

theorem countP_nontarget_filter_target (ts : List Nat) :
    (ts.filter fun t => is_target_time t 30).countP
      (fun t => ! is_target_time t 30) = 0 := by
  induction ts with
  | nil => simp
  | cons t ts ih =>
    by_cases h : is_target_time t 30
    · simp [List.filter_cons, h, List.countP_cons, ih]
    · simp [List.filter_cons, h, ih]

theorem insertByTs_perm (x : Nat × Nat × α) (l : List (Nat × Nat × α)) :
    List.Perm (insertByTs x l) (x :: l) := by
  induction l with
  | nil => exact List.Perm.refl _
  | cons y ys ih =>
    rw [insertByTs]
    by_cases h : x.1 < y.1
    · rw [if_pos h]
    · rw [if_neg h]
      exact List.Perm.trans (List.Perm.cons y ih) (List.Perm.swap x y ys)

theorem sortByTs_perm (l : List (Nat × Nat × α)) : List.Perm (sortByTs l) l := by
  suffices h : ∀ (l acc : List (Nat × Nat × α)),
      List.Perm (l.foldl (fun acc x => insertByTs x acc) acc) (acc ++ l) by
    simpa [sortByTs] using h l []
  intro l
  induction l with
  | nil => intro acc; simp
  | cons x xs ih =>
    intro acc
    simp only [List.foldl_cons]
    refine List.Perm.trans (ih _) ?_
    refine List.Perm.trans (List.Perm.append_right xs (insertByTs_perm x acc)) ?_
    exact List.perm_middle.symm

/-- Closed form of the eviction loop: it drops the length excess from
the front of all three arrays. -/
theorem evictLoop_eq_drop (m : Nat) :
    ∀ (fuel : Nat) (ts bs : List Nat) (ps : List α), ts.length ≤ fuel →
    evictLoop m fuel ts bs ps
      = (ts.drop (ts.length - m), bs.drop (ts.length - m),
         ps.drop (ts.length - m)) := by
  intro fuel
  induction fuel with
  | zero =>
    intro ts bs ps h
    have hnil : ts = [] := List.eq_nil_of_length_eq_zero (by omega)
    subst hnil
    simp [evictLoop]
  | succ fuel ih =>
    intro ts bs ps h
    rw [evictLoop]
    by_cases hm : m < ts.length
    · rw [if_pos hm]
      cases ts with
      | nil => simp at hm
      | cons t ts' =>
        have hlen : ts'.length ≤ fuel := by
          simp at h
          omega
        simp only [List.tail_cons]
        rw [ih ts' bs.tail ps.tail hlen]
        have hk : (t :: ts').length - m = (ts'.length - m) + 1 := by
          simp at hm ⊢
          omega
        rw [hk, List.drop_succ_cons, ← List.drop_one bs, ← List.drop_one ps,
          List.drop_drop, List.drop_drop, Nat.add_comm 1 (ts'.length - m)]
    · rw [if_neg hm]
      have h0 : ts.length - m = 0 := by omega
      rw [h0]
      simp

theorem evictOverflow_eq_drop (m : Nat) (ts bs : List Nat) (ps : List α) :
    evictOverflow m ts bs ps
      = (ts.drop (ts.length - m), bs.drop (ts.length - m),
         ps.drop (ts.length - m)) :=
  evictLoop_eq_drop m ts.length ts bs ps le_rfl

/-- Claim C9: on a timestamp-sorted store of n equal-length samples with
n exceeding the cap, the eviction loop removes exactly the n - maxSize
front (hence oldest) samples from all three arrays, leaving the m most
recent samples in their original relative order (a suffix). -/
theorem evictOverflow_removes_oldest (m : Nat) (ts bs : List Nat) (ps : List α)
    (hs : List.Sorted (· ≤ ·) ts) (h1 : ts.length = bs.length)
    (h2 : ts.length = ps.length) (hn : m < ts.length) :
    evictOverflow m ts bs ps
      = (ts.drop (ts.length - m), bs.drop (ts.length - m),
         ps.drop (ts.length - m)) ∧
    (evictOverflow m ts bs ps).1.length = m ∧
    (evictOverflow m ts bs ps).2.1.length = m ∧
    (evictOverflow m ts bs ps).2.2.length = m ∧
    (∀ x ∈ ts.take (ts.length - m), ∀ y ∈ ts.drop (ts.length - m), x ≤ y) := by
  have he := evictOverflow_eq_drop m ts bs ps
  refine ⟨he, ?_, ?_, ?_, ?_⟩
  · rw [he]
    simp only [List.length_drop]
    omega
  · rw [he]
    simp only [List.length_drop]
    omega
  · rw [he]
    simp only [List.length_drop]
    omega
  · have h3 : List.Sorted (· ≤ ·)
        (ts.take (ts.length - m) ++ ts.drop (ts.length - m)) := by
      rw [List.take_append_drop]
      exact hs
    exact (List.pairwise_append.mp h3).2.2

/-- Witness for C9 at the spec scenario: maxSize 5 with 8 sorted samples
evicts exactly the 3 oldest from all three arrays. -/
theorem evictOverflow_removes_oldest_witness :
    evictOverflow 5 [1, 2, 3, 4, 5, 6, 7, 8] [11, 12, 13, 14, 15, 16, 17, 18]
        ([21, 22, 23, 24, 25, 26, 27, 28] : List Nat)
      = ([4, 5, 6, 7, 8], [14, 15, 16, 17, 18], [24, 25, 26, 27, 28]) := by
  have h := evictOverflow_removes_oldest 5 [1, 2, 3, 4, 5, 6, 7, 8]
    [11, 12, 13, 14, 15, 16, 17, 18] ([21, 22, 23, 24, 25, 26, 27, 28] : List Nat)
    (by decide) rfl rfl (by decide)
  simpa using h.1

/-- Branch equation for clean when no non-target sample is stored. -/
theorem clean_eq_of_sort_nil (ts bs : List Nat) (ps : List α)
    (hE : ts.isEmpty = false)
    (hS : sortByTs ((toTriples ts bs ps).filter fun x => ! is_target_time x.1 30)
      = []) :
    clean_data_keep_targets_and_current ts bs ps
      = (((toTriples ts bs ps).filter fun x => is_target_time x.1 30).map
          fun x => x.1,
         ((toTriples ts bs ps).filter fun x => is_target_time x.1 30).map
          fun x => x.2.1,
         ((toTriples ts bs ps).filter fun x => is_target_time x.1 30).map
          fun x => x.2.2) := by
  simp only [clean_data_keep_targets_and_current, hE, Bool.false_eq_true,
    if_false, hS]

/-- Branch equation for clean when at least one non-target sample is
stored: the last element of the stable sort is re-inserted at its scan
position. -/
theorem clean_eq_of_sort_cons (ts bs : List Nat) (ps : List α)
    (hE : ts.isEmpty = false) (m : Nat × Nat × α) (ms : List (Nat × Nat × α))
    (hS : sortByTs ((toTriples ts bs ps).filter fun x => ! is_target_time x.1 30)
      = m :: ms) :
    clean_data_keep_targets_and_current ts bs ps
      = (insAt (findInsertPos ((m :: ms).getLast (List.cons_ne_nil m ms)).1
            (((toTriples ts bs ps).filter fun x => is_target_time x.1 30).map
              fun x => x.1))
          ((m :: ms).getLast (List.cons_ne_nil m ms)).1
          (((toTriples ts bs ps).filter fun x => is_target_time x.1 30).map
            fun x => x.1),
         insAt (findInsertPos ((m :: ms).getLast (List.cons_ne_nil m ms)).1
            (((toTriples ts bs ps).filter fun x => is_target_time x.1 30).map
              fun x => x.1))
          ((m :: ms).getLast (List.cons_ne_nil m ms)).2.1
          (((toTriples ts bs ps).filter fun x => is_target_time x.1 30).map
            fun x => x.2.1),
         insAt (findInsertPos ((m :: ms).getLast (List.cons_ne_nil m ms)).1
            (((toTriples ts bs ps).filter fun x => is_target_time x.1 30).map
              fun x => x.1))
          ((m :: ms).getLast (List.cons_ne_nil m ms)).2.2
          (((toTriples ts bs ps).filter fun x => is_target_time x.1 30).map
            fun x => x.2.2)) := by
  simp only [clean_data_keep_targets_and_current, hE, Bool.false_eq_true,
    if_false, hS]

/-- upsertCurrent preserves the store invariant (no precondition on the
current timestamp: whether or not it is a target time, at most one
non-target sample remains). -/
theorem storeInv_update_current (ts bs : List Nat) (ps : List α)
    (hinv : storeInv (ts, bs, ps)) (ct cb : Nat) (cp : α) :
    storeInv (update_current_price ts bs ps ct cb cp) := by
  obtain ⟨hl1, hl2, hsort, _⟩ := hinv
  simp only [update_current_price]
  refine ⟨?_, ?_, ?_, ?_⟩
  · simp [insAt_length]
  · simp [insAt_length]
  · rw [tgtTimes_eq ts bs ps hl1 hl2]
    exact sorted_insAt_findInsertPos _ _ (List.Pairwise.filter _ hsort)
  · rw [tgtTimes_eq ts bs ps hl1 hl2]
    simp only [countNonTarget]
    rw [countP_insAt, List.countP_cons, countP_nontarget_filter_target]
    by_cases h : is_target_time ct 30 <;> simp [h]

/-- clean preserves the store invariant. -/
theorem storeInv_clean (ts bs : List Nat) (ps : List α)
    (hinv : storeInv (ts, bs, ps)) :
    storeInv (clean_data_keep_targets_and_current ts bs ps) := by
  obtain ⟨hl1, hl2, hsort, hcnt⟩ := hinv
  cases hE : ts.isEmpty with
  | true =>
    have hnil : ts = [] := by
      cases ts with
      | nil => rfl
      | cons _ _ => simp at hE
    subst hnil
    exact ⟨hl1, hl2, hsort, hcnt⟩
  | false =>
    rcases hS : sortByTs ((toTriples ts bs ps).filter
        fun x => ! is_target_time x.1 30) with _ | ⟨m, ms⟩
    · rw [clean_eq_of_sort_nil ts bs ps hE hS]
      refine ⟨by simp, by simp, ?_, ?_⟩
      · rw [tgtTimes_eq ts bs ps hl1 hl2]
        exact List.Pairwise.filter _ hsort
      · rw [tgtTimes_eq ts bs ps hl1 hl2]
        simp only [countNonTarget]
        rw [countP_nontarget_filter_target]
        omega
    · have hmr_nt : is_target_time
          ((m :: ms).getLast (List.cons_ne_nil m ms)).1 30 = false := by
        have hmem : ((m :: ms).getLast (List.cons_ne_nil m ms))
            ∈ sortByTs ((toTriples ts bs ps).filter
              fun x => ! is_target_time x.1 30) := by
          rw [hS]
          exact List.getLast_mem _
        have hmem2 := (sortByTs_perm _).mem_iff.mp hmem
        have := List.of_mem_filter hmem2
        simpa using this
      rw [clean_eq_of_sort_cons ts bs ps hE m ms hS]
      refine ⟨by simp [insAt_length], by simp [insAt_length], ?_, ?_⟩
      · rw [tgtTimes_eq ts bs ps hl1 hl2]
        exact sorted_insAt_findInsertPos _ _ (List.Pairwise.filter _ hsort)
      · rw [tgtTimes_eq ts bs ps hl1 hl2]
        simp only [countNonTarget]
        rw [countP_insAt, List.countP_cons, countP_nontarget_filter_target,
          hmr_nt]
        simp

/-- Eviction preserves the store invariant. -/
theorem storeInv_evict (m : Nat) (s : List Nat × List Nat × List α)
    (hinv : storeInv s) : storeInv (evictOverflow m s.1 s.2.1 s.2.2) := by
  obtain ⟨hl1, hl2, hsort, hcnt⟩ := hinv
  rw [evictOverflow_eq_drop]
  refine ⟨?_, ?_, ?_, ?_⟩
  · simp [hl1]
  · simp [hl2]
  · exact List.Pairwise.sublist (List.drop_sublist _ _) hsort
  · exact le_trans (List.Sublist.countP_le _ (List.drop_sublist _ _)) hcnt

/-- The target-time insertion branch of main preserves the store
invariant whenever the inserted timestamp is a target time (the branch
guard). -/
theorem storeInv_insert_target (ts bs : List Nat) (ps : List α)
    (hinv : storeInv (ts, bs, ps)) (ct cb : Nat) (cp : α)
    (hct : is_target_time ct 30 = true) :
    storeInv (insert_target_point ts bs ps ct cb cp) := by
  obtain ⟨hl1, hl2, hsort, hcnt⟩ := hinv
  have hpre : storeInv (insAt (findInsertPos ct ts) ct ts,
      insAt (findInsertPos ct ts) cb bs, insAt (findInsertPos ct ts) cp ps) := by
    refine ⟨?_, ?_, ?_, ?_⟩
    · simp [insAt_length, hl1]
    · simp [insAt_length, hl2]
    · exact sorted_insAt_findInsertPos ct ts hsort
    · simp only [countNonTarget]
      rw [countP_insAt, List.countP_cons, hct]
      simpa using hcnt
  simpa only [insert_target_point] using
    storeInv_evict MAX_DATA_POINTS (insAt (findInsertPos ct ts) ct ts,
      insAt (findInsertPos ct ts) cb bs, insAt (findInsertPos ct ts) cp ps) hpre

/-- Claim C3 counterexample: a starting state with equal-length,
timestamp-sorted arrays but two non-target samples (03:00 and 04:00
UTC), followed by one legitimate target-sample insertion (06:00 UTC),
still holds two non-target samples - the claim needs the at-most-one
bound as a precondition as well. -/
theorem storeInv_claim_counterexample :
    List.Sorted (· ≤ ·) ([10800, 14400] : List Nat) ∧
    ([10800, 14400] : List Nat).length = ([1, 2] : List Nat).length ∧
    ([10800, 14400] : List Nat).length = ([10, 20] : List Nat).length ∧
    (∀ op ∈ [StoreOp.insertTarget 21600 3 (30 : Nat)], opOK op = true) ∧
    countNonTarget (applyOps (([10800, 14400], [1, 2], [10, 20]) :
      List Nat × List Nat × List Nat) [StoreOp.insertTarget 21600 3 30]).1
      = 2 := by
  decide

/-- Claim C3 as amended: for every starting store whose three parallel
lists are equal-length, timestamp-sorted AND contain at most one
non-target sample, any sequence of upsertCurrent, clean and
target-sample insertions (each inserted target sample having a target
timestamp, as the monitoring loop guarantees) keeps the lists
equal-length, the timestamps non-decreasing, and the number of stored
non-target samples at most one. -/
theorem storeInv_preserved (s0 : List Nat × List Nat × List α)
    (ops : List (StoreOp α)) (hinv : storeInv s0)
    (hops : ∀ op ∈ ops, opOK op = true) :
    storeInv (applyOps s0 ops) := by
  induction ops generalizing s0 with
  | nil => simpa [applyOps] using hinv
  | cons op ops ih =>
    have hop : opOK op = true := hops op (List.mem_cons_self op ops)
    have h1 : storeInv (applyOp s0 op) := by
      cases op with
      | upsertCurrent ct cb cp =>
        exact storeInv_update_current s0.1 s0.2.1 s0.2.2 hinv ct cb cp
      | clean => exact storeInv_clean s0.1 s0.2.1 s0.2.2 hinv
      | insertTarget ct cb cp =>
        exact storeInv_insert_target s0.1 s0.2.1 s0.2.2 hinv ct cb cp
          (by simpa [opOK] using hop)
    have hrest : ∀ o ∈ ops, opOK o = true :=
      fun o ho => hops o (List.mem_cons_of_mem _ ho)
    simpa [applyOps, List.foldl_cons] using ih (applyOp s0 op) h1 hrest

/-- Witness for the amended C3: a store holding one non-target sample
(01:00 UTC) survives an upsertCurrent (03:00 UTC) followed by a clean. -/
theorem storeInv_preserved_witness :
    storeInv (applyOps (([3600], [7], [9]) : List Nat × List Nat × List Nat)
      [StoreOp.upsertCurrent 10800 8 10, StoreOp.clean]) :=
  storeInv_preserved ([3600], [7], [9])
    [StoreOp.upsertCurrent 10800 8 10, StoreOp.clean]
    ⟨by decide, by decide, by decide, by decide⟩ (by decide)

/-- A store holding only target samples is a fixed point of clean. -/
theorem clean_fixed_of_targets (T : List (Nat × Nat × α))
    (hTT : T.filter (fun x => is_target_time x.1 30) = T)
    (hTN : T.filter (fun x => ! is_target_time x.1 30) = []) :
    clean_data_keep_targets_and_current (T.map fun x => x.1)
        (T.map fun x => x.2.1) (T.map fun x => x.2.2)
      = (T.map fun x => x.1, T.map fun x => x.2.1, T.map fun x => x.2.2) := by
  by_cases hTnil : T = []
  · subst hTnil
    simp [clean_data_keep_targets_and_current, toTriples]
  · have hE2 : (T.map fun x => x.1).isEmpty = false := by
      cases T with
      | nil => exact absurd rfl hTnil
      | cons _ _ => rfl
    have hS2 : sortByTs ((toTriples (T.map fun x => x.1) (T.map fun x => x.2.1)
        (T.map fun x => x.2.2)).filter fun x => ! is_target_time x.1 30)
        = [] := by
      rw [toTriples_of_maps, hTN]
      rfl
    rw [clean_eq_of_sort_nil _ _ _ hE2 hS2, toTriples_of_maps, hTT]

/-- A store holding only target samples plus one non-target sample at
its scan position is a fixed point of clean. -/
theorem clean_fixed_targets_plus_current (T : List (Nat × Nat × α))
    (mr : Nat × Nat × α)
    (hTT : T.filter (fun x => is_target_time x.1 30) = T)
    (hTN : T.filter (fun x => ! is_target_time x.1 30) = [])
    (hmr : is_target_time mr.1 30 = false) :
    clean_data_keep_targets_and_current
        (insAt (findInsertPos mr.1 (T.map fun x => x.1)) mr.1
          (T.map fun x => x.1))
        (insAt (findInsertPos mr.1 (T.map fun x => x.1)) mr.2.1
          (T.map fun x => x.2.1))
        (insAt (findInsertPos mr.1 (T.map fun x => x.1)) mr.2.2
          (T.map fun x => x.2.2))
      = (insAt (findInsertPos mr.1 (T.map fun x => x.1)) mr.1
          (T.map fun x => x.1),
         insAt (findInsertPos mr.1 (T.map fun x => x.1)) mr.2.1
          (T.map fun x => x.2.1),
         insAt (findInsertPos mr.1 (T.map fun x => x.1)) mr.2.2
          (T.map fun x => x.2.2)) := by
  have hE2 : (insAt (findInsertPos mr.1 (T.map fun x => x.1)) mr.1
      (T.map fun x => x.1)).isEmpty = false := insAt_isEmpty _ _ _
  have htrip : toTriples
      (insAt (findInsertPos mr.1 (T.map fun x => x.1)) mr.1
        (T.map fun x => x.1))
      (insAt (findInsertPos mr.1 (T.map fun x => x.1)) mr.2.1
        (T.map fun x => x.2.1))
      (insAt (findInsertPos mr.1 (T.map fun x => x.1)) mr.2.2
        (T.map fun x => x.2.2))
      = insAt (findInsertPos mr.1 (T.map fun x => x.1)) mr T := by
    rw [toTriples_insAt mr.1 mr.2.1 mr.2.2 _ _ _ _ (by simp) (by simp),
      toTriples_of_maps]
  have hfilterT : (insAt (findInsertPos mr.1 (T.map fun x => x.1)) mr T).filter
      (fun x => is_target_time x.1 30) = T := by
    rw [filter_insAt_neg _ _ _ _ (by simpa using hmr), hTT]
  have hfilterN : (insAt (findInsertPos mr.1 (T.map fun x => x.1)) mr T).filter
      (fun x => ! is_target_time x.1 30) = [mr] :=
    filter_insAt_pos_of_none _ _ _ _ (by simpa using hmr) hTN
  have hS2 : sortByTs ((toTriples
      (insAt (findInsertPos mr.1 (T.map fun x => x.1)) mr.1
        (T.map fun x => x.1))
      (insAt (findInsertPos mr.1 (T.map fun x => x.1)) mr.2.1
        (T.map fun x => x.2.1))
      (insAt (findInsertPos mr.1 (T.map fun x => x.1)) mr.2.2
        (T.map fun x => x.2.2))).filter fun x => ! is_target_time x.1 30)
      = [mr] := by
    rw [htrip, hfilterN]
    rfl
  rw [clean_eq_of_sort_cons _ _ _ hE2 mr [] hS2, htrip, hfilterT]
  simp

/-- Claim C4: clean is idempotent on every equal-length store state
(sortedness is not even needed). -/
theorem clean_idempotent (ts bs : List Nat) (ps : List α)
    (h1 : ts.length = bs.length) (h2 : ts.length = ps.length) :
    clean_data_keep_targets_and_current
        (clean_data_keep_targets_and_current ts bs ps).1
        (clean_data_keep_targets_and_current ts bs ps).2.1
        (clean_data_keep_targets_and_current ts bs ps).2.2
      = clean_data_keep_targets_and_current ts bs ps := by
  cases hE : ts.isEmpty with
  | true =>
    have hnil : ts = [] := by
      cases ts with
      | nil => rfl
      | cons _ _ => simp at hE
    subst hnil
    simp [clean_data_keep_targets_and_current]
  | false =>
    rcases hS : sortByTs ((toTriples ts bs ps).filter
        fun x => ! is_target_time x.1 30) with _ | ⟨m, ms⟩
    · rw [clean_eq_of_sort_nil ts bs ps hE hS]
      exact clean_fixed_of_targets _ (filter_filter_self _ _)
        (filter_not_of_filter _ _)
    · have hmr_nt : is_target_time
          ((m :: ms).getLast (List.cons_ne_nil m ms)).1 30 = false := by
        have hmem : ((m :: ms).getLast (List.cons_ne_nil m ms))
            ∈ sortByTs ((toTriples ts bs ps).filter
              fun x => ! is_target_time x.1 30) := by
          rw [hS]
          exact List.getLast_mem _
        have hmem2 := (sortByTs_perm _).mem_iff.mp hmem
        have := List.of_mem_filter hmem2
        simpa using this
      rw [clean_eq_of_sort_cons ts bs ps hE m ms hS]
      exact clean_fixed_targets_plus_current _ _ (filter_filter_self _ _)
        (filter_not_of_filter _ _) hmr_nt

/-- Witness for C4 at a concrete two-sample store (03:00 non-target and
06:00 target). -/
theorem clean_idempotent_witness :
    clean_data_keep_targets_and_current
        (clean_data_keep_targets_and_current [10800, 21600] [1, 2]
          ([5, 6] : List Nat)).1
        (clean_data_keep_targets_and_current [10800, 21600] [1, 2]
          ([5, 6] : List Nat)).2.1
        (clean_data_keep_targets_and_current [10800, 21600] [1, 2]
          ([5, 6] : List Nat)).2.2
      = clean_data_keep_targets_and_current [10800, 21600] [1, 2]
          ([5, 6] : List Nat) :=
  clean_idempotent [10800, 21600] [1, 2] [5, 6] rfl rfl

end PriceStore

end BZeroX
